import Mathlib

/-!
Verification of the Solana-style program cache (`program-runtime/src/loaded_programs.rs`).

This file gives a shallow embedding of the program cache data model and its
operations, translated from the Rust source, and proves the specification
claims about them.  Machine integers (`u64`) are modelled as `Nat` with
explicit reduction modulo `2 ^ 64` wherever the source performs wrapping
arithmetic; `saturating_sub` is `Nat` subtraction; hash maps are modelled as
association lists; `Arc` identity of runtime environments is modelled by a
numeric identifier compared for equality (the Rust code only ever compares
environments via `Arc::ptr_eq`).
-/

namespace ProgramCacheModel

/-- `u64` modulus for wrapping arithmetic. -/
def U64 : Nat := 2 ^ 64

/-- Slots are `u64` block heights. -/
abbrev Slot := Nat

/-- Epochs are `u64`. -/
abbrev Epoch := Nat

/-- Program addresses (32-byte pubkeys), modelled opaquely. -/
abbrev Pubkey := Nat

/-- Identity of an `Arc<BuiltinProgram<...>>` runtime environment
(the code compares environments only via `Arc::ptr_eq`). -/
abbrev EnvId := Nat

/-- Worker thread identifier (`std::thread::ThreadId`). -/
abbrev ThreadId := Nat

/-- `MAX_LOADED_ENTRY_COUNT` from the source. -/
def MAX_LOADED_ENTRY_COUNT : Nat := 256

/-- `DELAY_VISIBILITY_SLOT_OFFSET` from the source. -/
def DELAY_VISIBILITY_SLOT_OFFSET : Slot := 1

/-- Relationship between two fork IDs (`BlockRelation`). -/
inductive BlockRelation where
  | Ancestor
  | Equal
  | Descendant
  | Unrelated
  | Unknown
deriving DecidableEq, Repr

/-- A fork graph is queried only through `relationship`; we model it as a
pure function on slots. -/
abbrev ForkGraphFn := Slot → Slot → BlockRelation

/-- `ProgramRuntimeEnvironments`: the pair of current environments. -/
structure ProgramRuntimeEnvironments where
  program_runtime_v1 : EnvId
  program_runtime_v2 : EnvId
deriving DecidableEq, Repr

/-- `LoadedProgramType`: the payload of a cache entry.  Executables are
modelled by the identity of the environment (`loader`) they were loaded
with, which is all `get_environment` exposes of them. -/
inductive LoadedProgramType where
  | failedVerification (env : EnvId)
  | closed
  | delayVisibility
  | unloaded (env : EnvId)
  | legacyV0 (env : EnvId)
  | legacyV1 (env : EnvId)
  | typed (env : EnvId)
  | builtin
deriving DecidableEq, Repr

/-- `LoadedProgramType::get_environment`. -/
def LoadedProgramType.get_environment : LoadedProgramType → Option EnvId
  | .legacyV0 env | .legacyV1 env | .typed env => some env
  | .failedVerification env | .unloaded env => some env
  | _ => none

/-- `LoadedProgram`: one program version.  The three `AtomicU64` counters are
plain `Nat` fields; all source mutations of them are wrapping `u64`
operations, reduced modulo `2 ^ 64` in the embedding. -/
structure LoadedProgram where
  program : LoadedProgramType
  account_size : Nat
  deployment_slot : Slot
  effective_slot : Slot
  tx_usage_counter : Nat
  ix_usage_counter : Nat
  latest_access_slot : Nat
deriving DecidableEq, Repr

/-- `LoadedProgram::new_tombstone`. -/
def LoadedProgram.new_tombstone (slot : Slot) (reason : LoadedProgramType) : LoadedProgram :=
  { program := reason
    account_size := 0
    deployment_slot := slot
    effective_slot := slot
    tx_usage_counter := 0
    ix_usage_counter := 0
    latest_access_slot := 0 }

/-- `LoadedProgram::is_tombstone`. -/
def LoadedProgram.is_tombstone (e : LoadedProgram) : Bool :=
  match e.program with
  | .failedVerification _ | .closed | .delayVisibility => true
  | _ => false

/-- `LoadedProgram::is_implicit_delay_visibility_tombstone`
(`saturating_sub` is `Nat` subtraction). -/
def LoadedProgram.is_implicit_delay_visibility_tombstone
    (e : LoadedProgram) (slot : Slot) : Bool :=
  !(e.program matches .builtin)
    && (e.effective_slot - e.deployment_slot == DELAY_VISIBILITY_SLOT_OFFSET)
    && (slot ≥ e.deployment_slot)
    && (slot < e.effective_slot)

/-- `LoadedProgram::update_access_slot` (`fetch_max`). -/
def LoadedProgram.update_access_slot (e : LoadedProgram) (slot : Slot) : LoadedProgram :=
  { e with latest_access_slot := max e.latest_access_slot slot }

/-- `LoadedProgram::decayed_usage_counter`. -/
def LoadedProgram.decayed_usage_counter (e : LoadedProgram) (now : Slot) : Nat :=
  let last_access := e.latest_access_slot
  let decaying_for := min 63 (now - last_access)
  e.tx_usage_counter >>> decaying_for

/-- `LoadedProgram::to_unloaded`. -/
def LoadedProgram.to_unloaded (e : LoadedProgram) : Option LoadedProgram :=
  match e.program with
  | .legacyV0 _ | .legacyV1 _ | .typed _ =>
    match e.program.get_environment with
    | none => none
    | some env =>
      some { program := .unloaded env
             account_size := e.account_size
             deployment_slot := e.deployment_slot
             effective_slot := e.effective_slot
             tx_usage_counter := e.tx_usage_counter
             ix_usage_counter := e.ix_usage_counter
             latest_access_slot := e.latest_access_slot }
  | _ => none

/-- The `PartialEq` instance of `LoadedProgram`: equality of
`(effective_slot, deployment_slot, is_tombstone)`. -/
def LoadedProgram.partialEq (a b : LoadedProgram) : Bool :=
  a.effective_slot == b.effective_slot
    && a.deployment_slot == b.deployment_slot
    && a.is_tombstone == b.is_tombstone

/-- `SecondLevel`: all versions at one address plus the cooperative-loading
lock. -/
structure SecondLevel where
  slot_versions : List LoadedProgram
  cooperative_loading_lock : Option (Slot × ThreadId)
deriving DecidableEq, Repr

instance : Inhabited SecondLevel := ⟨⟨[], none⟩⟩

/-- `SecondLevel::default()`. -/
def SecondLevel.default : SecondLevel := ⟨[], none⟩

/-- Global cache statistics (`Stats`); `evictions` is a map from program
address to count, modelled as an association list. -/
structure Stats where
  hits : Nat
  misses : Nat
  evictions : List (Pubkey × Nat)
  reloads : Nat
  insertions : Nat
  lost_insertions : Nat
  replacements : Nat
  one_hit_wonders : Nat
  prunes_orphan : Nat
  prunes_environment : Nat
  empty_entries : Nat
deriving DecidableEq, Repr

def Stats.default : Stats := ⟨0, 0, [], 0, 0, 0, 0, 0, 0, 0, 0⟩

/-- `LoadedProgramMatchCriteria`. -/
inductive LoadedProgramMatchCriteria where
  | deployedOnOrAfterSlot (slot : Slot)
  | tombstone
  | noCriteria
deriving DecidableEq, Repr

/-- The global `ProgramCache`.  The `HashMap<Pubkey, SecondLevel>` is an
association list; `loading_task_waiter` is represented by its cookie. -/
structure ProgramCache where
  entries : List (Pubkey × SecondLevel)
  latest_root_slot : Slot
  latest_root_epoch : Epoch
  environments : ProgramRuntimeEnvironments
  upcoming_environments : Option ProgramRuntimeEnvironments
  programs_to_recompile : List (Pubkey × LoadedProgram)
  stats : Stats
  fork_graph : Option ForkGraphFn
  waiter_cookie : Nat

/-- Association-list lookup (`HashMap::get`). -/
def lookupSL : List (Pubkey × SecondLevel) → Pubkey → Option SecondLevel
  | [], _ => none
  | p :: rest, k => if p.1 == k then some p.2 else lookupSL rest k

/-- Whether the map contains a key. -/
def containsSL (es : List (Pubkey × SecondLevel)) (k : Pubkey) : Bool :=
  (lookupSL es k).isSome

/-- Replace the value at an existing key (in-place update through a
`&mut` borrow of the map slot). -/
def setSL : List (Pubkey × SecondLevel) → Pubkey → SecondLevel →
    List (Pubkey × SecondLevel)
  | [], _, _ => []
  | p :: rest, k, v =>
    if p.1 == k then (p.1, v) :: setSL rest k v else p :: setSL rest k v

/-- `HashMap::entry(key).or_default()`: materialize a default value when
the key is absent. -/
def orDefaultSL (es : List (Pubkey × SecondLevel)) (k : Pubkey) :
    List (Pubkey × SecondLevel) :=
  if containsSL es k then es else es ++ [(k, SecondLevel.default)]

/-- The composite ordering key used by `assign_program`'s binary search. -/
def keyOf (e : LoadedProgram) : Nat × Nat := (e.effective_slot, e.deployment_slot)

/-- Lexicographic strict order on composite keys. -/
def keyLt (a b : Nat × Nat) : Prop := a.1 < b.1 ∨ (a.1 = b.1 ∧ a.2 < b.2)

instance (a b : Nat × Nat) : Decidable (keyLt a b) := by
  unfold keyLt; infer_instance

/-- The comparator passed to `binary_search_by`:
`at.effective_slot.cmp(entry.effective_slot).then(at.deployment_slot.cmp(entry.deployment_slot))`. -/
def cmpKey (a b : Nat × Nat) : Ordering :=
  (compare a.1 b.1).then (compare a.2 b.2)

/-- `slice::binary_search_by` (Rust core): the loop over `[left, right)`.
On success it also returns the matching element (`self[mid]`).  The loop
shrinks `right - left` on every iteration, so it is written as structural
recursion on a fuel bound for that quantity; when the fuel runs out the
loop has already reached `left ≥ right` and exits with `Err(left)`, exactly
as the `0` case does. -/
def binarySearchGo (xs : List LoadedProgram) (target : Nat × Nat) :
    Nat → Nat → Nat → Sum (Nat × LoadedProgram) Nat
  | 0, left, _ => .inr left
  | fuel + 1, left, right =>
    if left < right then
      match xs[left + (right - left) / 2]? with
      | none => .inr left
      | some x =>
        match cmpKey (keyOf x) target with
        | .lt => binarySearchGo xs target fuel (left + (right - left) / 2 + 1) right
        | .gt => binarySearchGo xs target fuel left (left + (right - left) / 2)
        | .eq => .inl (left + (right - left) / 2, x)
    else .inr left

/-- `slot_versions.binary_search_by(...)` from `assign_program`. -/
def binarySearch (xs : List LoadedProgram) (target : Nat × Nat) :
    Sum (Nat × LoadedProgram) Nat :=
  binarySearchGo xs target xs.length 0 xs.length

/-- The replacement transitions `assign_program` accepts at an occupied
`(effective_slot, deployment_slot)` key. -/
def validTransition : LoadedProgramType → LoadedProgramType → Bool
  | .builtin, .builtin => true
  | .closed, .legacyV0 _ | .closed, .legacyV1 _ | .closed, .typed _ => true
  | .unloaded _, .legacyV0 _ | .unloaded _, .legacyV1 _ | .unloaded _, .typed _ => true
  | _, _ => false

/-- `ProgramCache::assign_program`.  Returns the `bool` result together with
the updated cache. -/
def ProgramCache.assign_program (c : ProgramCache) (key : Pubkey)
    (entry : LoadedProgram) : Bool × ProgramCache :=
  let es := orDefaultSL c.entries key
  let sl := (lookupSL es key).getD SecondLevel.default
  match binarySearch sl.slot_versions (keyOf entry) with
  | .inl (index, existing) =>
    if validTransition existing.program entry.program then
      -- Copy over the usage counter to the new entry, then replace in place.
      let entry' :=
        { entry with
          tx_usage_counter := (entry.tx_usage_counter + existing.tx_usage_counter) % U64
          ix_usage_counter := (entry.ix_usage_counter + existing.ix_usage_counter) % U64 }
      let sl' := { sl with slot_versions := sl.slot_versions.set index entry' }
      (false,
        { c with
          entries := setSL es key sl'
          stats := { c.stats with reloads := (c.stats.reloads + 1) % U64 } })
    else
      -- Unexpected replacement of an entry: statistic only, return occupied.
      (true,
        { c with
          entries := es
          stats := { c.stats with replacements := (c.stats.replacements + 1) % U64 } })
  | .inr index =>
    let sl' := { sl with slot_versions := sl.slot_versions.insertIdx index entry }
    (false,
      { c with
        entries := setSL es key sl'
        stats := { c.stats with insertions := (c.stats.insertions + 1) % U64 } })

/-- `LoadedProgramsForTxBatch` (the per-batch view). -/
structure LoadedProgramsForTxBatch where
  entries : List (Pubkey × LoadedProgram)
  slot : Slot
  environments : ProgramRuntimeEnvironments
  upcoming_environments : Option ProgramRuntimeEnvironments
  latest_root_epoch : Epoch
  hit_max_limit : Bool
deriving DecidableEq, Repr

/-- Batch map lookup. -/
def lookupKV : List (Pubkey × LoadedProgram) → Pubkey → Option LoadedProgram
  | [], _ => none
  | p :: rest, k => if p.1 == k then some p.2 else lookupKV rest k

/-- `HashMap::insert` for the batch entries map. -/
def insertKV (es : List (Pubkey × LoadedProgram)) (k : Pubkey) (v : LoadedProgram) :
    List (Pubkey × LoadedProgram) :=
  if (lookupKV es k).isSome then
    es.map (fun p => if p.1 == k then (p.1, v) else p)
  else
    es ++ [(k, v)]

/-- `LoadedProgramsForTxBatch::replenish`. -/
def LoadedProgramsForTxBatch.replenish (b : LoadedProgramsForTxBatch) (key : Pubkey)
    (entry : LoadedProgram) : (Bool × LoadedProgram) × LoadedProgramsForTxBatch :=
  (((lookupKV b.entries key).isSome, entry),
    { b with entries := insertKV b.entries key entry })

/-- `LoadedProgramsForTxBatch::find`. -/
def LoadedProgramsForTxBatch.find (b : LoadedProgramsForTxBatch) (key : Pubkey) :
    Option LoadedProgram :=
  (lookupKV b.entries key).map (fun entry =>
    if entry.is_implicit_delay_visibility_tombstone b.slot then
      -- Found a program entry on the current fork, but it is not effective
      -- yet: return a delay-visibility tombstone instead.
      LoadedProgram.new_tombstone entry.deployment_slot .delayVisibility
    else entry)

/-- `ProgramCache::matches_environment`. -/
def matches_environment (entry : LoadedProgram)
    (environments : ProgramRuntimeEnvironments) : Bool :=
  match entry.program.get_environment with
  | none => true
  | some environment =>
    environment == environments.program_runtime_v1
      || environment == environments.program_runtime_v2

/-- `ProgramCache::matches_loaded_program_criteria`. -/
def matches_loaded_program_criteria (program : LoadedProgram)
    (criteria : LoadedProgramMatchCriteria) : Bool :=
  match criteria with
  | .deployedOnOrAfterSlot slot => program.deployment_slot ≥ slot
  | .tombstone => program.is_tombstone
  | .noCriteria => true

/-! ### `ProgramCache::extract` -/

/-- One request of the `search_for` list: `(key, (match_criteria, usage_count))`. -/
abbrev SearchItem := Pubkey × LoadedProgramMatchCriteria × Nat

/-- The fork-visibility test of the inner loop of `extract`:
`entry.deployment_slot <= latest_root_slot ||
 matches!(relationship(entry.deployment_slot, batch.slot), Equal | Ancestor)`. -/
def visibleOnFork (fg : ForkGraphFn) (latestRoot : Slot) (batchSlot : Slot)
    (e : LoadedProgram) : Bool :=
  (e.deployment_slot ≤ latestRoot)
    || (match fg e.deployment_slot batchSlot with
        | .Equal | .Ancestor => true
        | _ => false)

/-- Outcome of the inner `slot_versions` scan of `extract` for one request:
either the entry at index `i` of `slot_versions` is returned, or a fresh
delay-visibility tombstone at `dep` is returned. -/
inductive ExtractHit where
  | real (i : Nat) (e : LoadedProgram)
  | tomb (dep : Slot)
deriving DecidableEq, Repr

/-- The inner loop of `extract`: scan the enumerated `slot_versions`
(newest first, i.e. reversed), returning the hit or `none` for a miss. -/
def findHit (fg : ForkGraphFn) (latestRoot : Slot) (batchSlot : Slot)
    (envs : ProgramRuntimeEnvironments) (criteria : LoadedProgramMatchCriteria) :
    List (Nat × LoadedProgram) → Option ExtractHit
  | [] => none
  | (i, e) :: rest =>
    if visibleOnFork fg latestRoot batchSlot e then
      if batchSlot ≥ e.effective_slot && matches_environment e envs then
        if !matches_loaded_program_criteria e criteria then
          none  -- break
        else if e.program matches .unloaded _ then
          none  -- break
        else
          some (.real i e)
      else if e.is_implicit_delay_visibility_tombstone batchSlot then
        some (.tomb e.deployment_slot)
      else
        findHit fg latestRoot batchSlot envs criteria rest  -- continue
    else
      findHit fg latestRoot batchSlot envs criteria rest

/-- Resolution of one search item against the cache: `none` is a miss;
otherwise the updated entries map and batch are returned.  A `real` hit
mutates the shared entry in place (access slot and usage counter) — the same
object lands in the cache and in the batch; a tombstone hit mutates only the
freshly minted tombstone. -/
def resolveItem (fg : ForkGraphFn) (latestRoot : Slot)
    (es : List (Pubkey × SecondLevel)) (b : LoadedProgramsForTxBatch)
    (item : SearchItem) :
    Option (List (Pubkey × SecondLevel) × LoadedProgramsForTxBatch) :=
  match lookupSL es item.1 with
  | none => none
  | some sl =>
    match findHit fg latestRoot b.slot b.environments item.2.1
        sl.slot_versions.enum.reverse with
    | none => none
    | some (.real i e) =>
      let e' :=
        { e with
          latest_access_slot := max e.latest_access_slot b.slot
          tx_usage_counter := (e.tx_usage_counter + item.2.2) % U64 }
      some (setSL es item.1 { sl with slot_versions := sl.slot_versions.set i e' },
            { b with entries := insertKV b.entries item.1 e' })
    | some (.tomb dep) =>
      let t := LoadedProgram.new_tombstone dep .delayVisibility
      let t' :=
        { t with
          latest_access_slot := max t.latest_access_slot b.slot
          tx_usage_counter := (t.tx_usage_counter + item.2.2) % U64 }
      some (es, { b with entries := insertKV b.entries item.1 t' })

/-- The miss path of `extract`: claim the cooperative-loading lock for the
first miss when no task is selected yet. -/
def missPath (batchSlot : Slot) (worker : ThreadId)
    (es : List (Pubkey × SecondLevel)) (task : Option (Pubkey × Nat))
    (item : SearchItem) : List (Pubkey × SecondLevel) × Option (Pubkey × Nat) :=
  match task with
  | some _ => (es, task)
  | none =>
    let es₁ := orDefaultSL es item.1
    let sl := (lookupSL es₁ item.1).getD SecondLevel.default
    match sl.cooperative_loading_lock with
    | none =>
      (setSL es₁ item.1 { sl with cooperative_loading_lock := some (batchSlot, worker) },
       some (item.1, item.2.2))
    | some _ => (es₁, task)

/-- The `search_for.retain(...)` loop of `extract`. -/
def extractGo (fg : ForkGraphFn) (latestRoot : Slot) (worker : ThreadId) :
    List SearchItem → List (Pubkey × SecondLevel) → LoadedProgramsForTxBatch →
    Option (Pubkey × Nat) →
    List SearchItem × List (Pubkey × SecondLevel) × LoadedProgramsForTxBatch ×
      Option (Pubkey × Nat)
  | [], es, b, task => ([], es, b, task)
  | item :: rest, es, b, task =>
    match resolveItem fg latestRoot es b item with
    | some (es', b') => extractGo fg latestRoot worker rest es' b' task
    | none =>
      let (es₁, task₁) := missPath b.slot worker es task item
      let (restOut, esOut, bOut, taskOut) := extractGo fg latestRoot worker rest es₁ b task₁
      (item :: restOut, esOut, bOut, taskOut)

/-- `ProgramCache::extract`.  Returns `none` when no fork graph is set (the
source unwraps it).  Otherwise returns the cooperative-loading task, the
updated cache, the updated batch and the remaining `search_for` list. -/
def ProgramCache.extract (c : ProgramCache) (search_for : List SearchItem)
    (b : LoadedProgramsForTxBatch) (is_first_round : Bool) (worker : ThreadId) :
    Option (Option (Pubkey × Nat) × ProgramCache × LoadedProgramsForTxBatch ×
      List SearchItem) :=
  match c.fork_graph with
  | none => none
  | some fg =>
    let (sfOut, esOut, bOut, taskOut) :=
      extractGo fg c.latest_root_slot worker search_for c.entries b none
    let stats' :=
      if is_first_round then
        { c.stats with
          misses := (c.stats.misses + sfOut.length) % U64
          hits := (c.stats.hits + bOut.entries.length) % U64 }
      else c.stats
    some (taskOut, { c with entries := esOut, stats := stats' }, bOut, sfOut)

/-! ### `ProgramCache::prune` -/

/-- The first (orphan) filter of `prune`, applied to the reversed
`slot_versions`, threading the `first_ancestor_found` / `first_ancestor_env`
state and counting `prunes_orphan` increments. -/
def pruneFilter1 (fg : ForkGraphFn) (newRoot latestRoot : Slot) :
    List LoadedProgram → Bool → Option EnvId → List LoadedProgram × Nat
  | [], _, _ => ([], 0)
  | e :: rest, found, fenv =>
    let relation := fg e.deployment_slot newRoot
    if e.deployment_slot ≥ newRoot then
      if relation = .Equal ∨ relation = .Descendant then
        let (l, n) := pruneFilter1 fg newRoot latestRoot rest found fenv
        (e :: l, n)
      else
        pruneFilter1 fg newRoot latestRoot rest found fenv
    else if relation = .Ancestor ∨ e.deployment_slot ≤ latestRoot then
      if !found then
        let (l, n) := pruneFilter1 fg newRoot latestRoot rest true e.program.get_environment
        (e :: l, n)
      else
        match e.program.get_environment, fenv with
        | some entry_env, some env =>
          if entry_env ≠ env then
            -- Entry of a different (older-epoch) environment: keep it.
            let (l, n) := pruneFilter1 fg newRoot latestRoot rest found fenv
            (e :: l, n)
          else
            let (l, n) := pruneFilter1 fg newRoot latestRoot rest found fenv
            (l, n + 1)
        | _, _ =>
          let (l, n) := pruneFilter1 fg newRoot latestRoot rest found fenv
          (l, n + 1)
    else
      let (l, n) := pruneFilter1 fg newRoot latestRoot rest found fenv
      (l, n + 1)

/-- The second (environment) filter of `prune`: active only when the
recompilation phase just ended; counts `prunes_environment` increments. -/
def pruneFilter2 (recompilationPhaseEnds : Bool)
    (envs : ProgramRuntimeEnvironments) : List LoadedProgram → List LoadedProgram × Nat
  | [] => ([], 0)
  | e :: rest =>
    let (l, n) := pruneFilter2 recompilationPhaseEnds envs rest
    if recompilationPhaseEnds && !matches_environment e envs then
      (l, n + 1)
    else
      (e :: l, n)

/-- Pruning of one `SecondLevel`: reversed scan, both filters, reverse back.
Returns the new `slot_versions` with the orphan and environment prune
counts. -/
def pruneSecondLevel (fg : ForkGraphFn) (newRoot latestRoot : Slot)
    (recompilationPhaseEnds : Bool) (envs : ProgramRuntimeEnvironments)
    (sl : List LoadedProgram) : List LoadedProgram × Nat × Nat :=
  let (kept1, orphan) := pruneFilter1 fg newRoot latestRoot sl.reverse false none
  let (kept2, envN) := pruneFilter2 recompilationPhaseEnds envs kept1
  (kept2.reverse, orphan, envN)

/-- `ProgramCache::remove_programs_with_no_entries`. -/
def removeProgramsWithNoEntries (es : List (Pubkey × SecondLevel)) (stats : Stats) :
    List (Pubkey × SecondLevel) × Stats :=
  let es' := es.filter (fun p =>
    !p.2.slot_versions.isEmpty || p.2.cooperative_loading_lock.isSome)
  let removed := es.length - es'.length
  (es', if es'.length < es.length then
    { stats with empty_entries := (stats.empty_entries + removed) % U64 }
  else stats)

/-- One step of the per-address sweep of `prune`, accumulating the new
entries in order together with the two prune statistics. -/
def pruneStep (fg : ForkGraphFn) (newRoot latestRoot : Slot)
    (recompilationPhaseEnds : Bool) (envs : ProgramRuntimeEnvironments)
    (acc : List (Pubkey × SecondLevel) × Nat × Nat) (p : Pubkey × SecondLevel) :
    List (Pubkey × SecondLevel) × Nat × Nat :=
  let (sl', orphan, envN) :=
    pruneSecondLevel fg newRoot latestRoot recompilationPhaseEnds envs
      p.2.slot_versions
  (acc.1 ++ [(p.1, { p.2 with slot_versions := sl' })],
   acc.2.1 + orphan, acc.2.2 + envN)

/-- `ProgramCache::prune`.  Returns the cache unchanged when no fork graph is
set. -/
def ProgramCache.prune (c : ProgramCache) (new_root_slot : Slot)
    (new_root_epoch : Epoch) : ProgramCache :=
  match c.fork_graph with
  | none => c
  | some fg =>
    -- Epoch change: possibly end the recompilation phase.
    let (epoch', envs', upcoming', recompile', recompilationPhaseEnds) :=
      if c.latest_root_epoch ≠ new_root_epoch then
        match c.upcoming_environments with
        | some upcoming =>
          (new_root_epoch, upcoming, none, ([] : List (Pubkey × LoadedProgram)), true)
        | none => (new_root_epoch, c.environments, none, c.programs_to_recompile, false)
      else
        (c.latest_root_epoch, c.environments, c.upcoming_environments,
         c.programs_to_recompile, false)
    -- Per-address sweep.
    let swept := c.entries.foldl
      (pruneStep fg new_root_slot c.latest_root_slot recompilationPhaseEnds envs')
      ([], 0, 0)
    let stats₁ :=
      { c.stats with
        prunes_orphan := (c.stats.prunes_orphan + swept.2.1) % U64
        prunes_environment := (c.stats.prunes_environment + swept.2.2) % U64 }
    let pruned := removeProgramsWithNoEntries swept.1 stats₁
    { c with
      entries := pruned.1
      latest_root_slot := new_root_slot
      latest_root_epoch := epoch'
      environments := envs'
      upcoming_environments := upcoming'
      programs_to_recompile := recompile'
      stats := pruned.2 }

/-! ### Remaining public operations -/

/-- `ProgramCache::prune_by_deployment_slot`. -/
def ProgramCache.prune_by_deployment_slot (c : ProgramCache) (slot : Slot) :
    ProgramCache :=
  let es' := c.entries.map (fun p =>
    (p.1, { p.2 with
            slot_versions := p.2.slot_versions.filter
              (fun entry => entry.deployment_slot ≠ slot) }))
  let pruned := removeProgramsWithNoEntries es' c.stats
  { c with entries := pruned.1, stats := pruned.2 }

/-- `ProgramCache::finish_cooperative_loading_task`.  Returns `none` when no
fork graph is set (the source unwraps it). -/
def ProgramCache.finish_cooperative_loading_task (c : ProgramCache) (slot : Slot)
    (key : Pubkey) (loaded_program : LoadedProgram) : Option (Bool × ProgramCache) :=
  let es₁ := orDefaultSL c.entries key
  let sl := (lookupSL es₁ key).getD SecondLevel.default
  let es₂ := setSL es₁ key { sl with cooperative_loading_lock := none }
  match c.fork_graph with
  | none => none
  | some fg =>
    let lost :=
      loaded_program.deployment_slot > c.latest_root_slot
        && !(match fg loaded_program.deployment_slot slot with
             | .Equal | .Ancestor => true
             | _ => false)
    let stats₁ :=
      if lost then
        { c.stats with lost_insertions := (c.stats.lost_insertions + 1) % U64 }
      else c.stats
    let r :=
      ProgramCache.assign_program { c with entries := es₂, stats := stats₁ }
        key loaded_program
    some (r.1, { r.2 with waiter_cookie := (r.2.waiter_cookie + 1) % U64 })

/-- `ProgramCache::merge`. -/
def ProgramCache.merge (c : ProgramCache) (tx_batch_cache : LoadedProgramsForTxBatch) :
    ProgramCache :=
  tx_batch_cache.entries.foldl
    (fun acc p => (ProgramCache.assign_program acc p.1 p.2).2) c

/-- `ProgramCache::get_flattened_entries`. -/
def ProgramCache.get_flattened_entries (c : ProgramCache)
    (include_program_runtime_v1 include_program_runtime_v2 : Bool) :
    List (Pubkey × LoadedProgram) :=
  c.entries.flatMap (fun p =>
    p.2.slot_versions.filterMap (fun program =>
      match program.program with
      | .legacyV0 _ | .legacyV1 _ =>
        if include_program_runtime_v1 then some (p.1, program) else none
      | .typed _ =>
        if include_program_runtime_v2 then some (p.1, program) else none
      | _ => none))

/-- `PercentageInteger::apply_to` (external `percentage` crate):
`value * percent / 100` in integer arithmetic. -/
def percentageApplyTo (percent value : Nat) : Nat := value * percent / 100

/-- Find the first element satisfying the predicate together with its index
(`iter_mut().find(...)`). -/
def findIdxEntry (p : LoadedProgram → Bool) : List LoadedProgram →
    Option (Nat × LoadedProgram)
  | [] => none
  | e :: rest =>
    if p e then some (0, e)
    else (findIdxEntry p rest).map (fun q => (q.1 + 1, q.2))

/-- Increment the per-program eviction count
(`evictions.entry(k).and_modify(saturating_add).or_insert(1)`). -/
def bumpEviction (m : List (Pubkey × Nat)) (k : Pubkey) : List (Pubkey × Nat) :=
  if (m.find? (fun p => p.1 == k)).isSome then
    m.map (fun p => if p.1 == k then (p.1, min (p.2 + 1) (U64 - 1)) else p)
  else
    m ++ [(k, 1)]

/-- `ProgramCache::unload_program_entry`.  Returns `none` on the `expect`
panics (program or entry missing from the cache). -/
def ProgramCache.unload_program_entry (c : ProgramCache) (program : Pubkey)
    (remove_entry : LoadedProgram) : Option ProgramCache :=
  match lookupSL c.entries program with
  | none => none
  | some sl =>
    match findIdxEntry (fun e => e.partialEq remove_entry) sl.slot_versions with
    | none => none
    | some (j, candidate) =>
      match candidate.to_unloaded with
      | none => some c
      | some unloaded =>
        let stats₁ :=
          if candidate.tx_usage_counter = 1 then
            { c.stats with one_hit_wonders := (c.stats.one_hit_wonders + 1) % U64 }
          else c.stats
        let stats₂ := { stats₁ with evictions := bumpEviction stats₁.evictions program }
        some { c with
               entries := setSL c.entries program
                 { sl with slot_versions := sl.slot_versions.set j unloaded }
               stats := stats₂ }

/-- `ProgramCache::sort_and_unload` (panics propagate as `none`). -/
def ProgramCache.sort_and_unload (c : ProgramCache) (shrink_to : Nat) :
    Option ProgramCache :=
  let sorted_candidates :=
    (c.get_flattened_entries true true).mergeSort
      (fun a b => a.2.tx_usage_counter ≤ b.2.tx_usage_counter)
  let num_to_unload :=
    sorted_candidates.length - percentageApplyTo shrink_to MAX_LOADED_ENTRY_COUNT
  (sorted_candidates.take num_to_unload).foldlM
    (fun acc p => ProgramCache.unload_program_entry acc p.1 p.2) c

/-- `Vec::swap_remove`: return the element at `i` and the vector with the
last element moved into its place. -/
def swapRemove (l : List (Pubkey × LoadedProgram)) (i : Nat) :
    Option ((Pubkey × LoadedProgram) × List (Pubkey × LoadedProgram)) :=
  match l[i]? with
  | none => none
  | some x =>
    match l.getLast? with
    | none => none
    | some last => some (x, (l.set i last).dropLast)

/-- `random_index_and_usage_counter`, with the sampled index supplied as an
oracle value (`gen_range(0..len)` guarantees it is in range; out-of-range
models the panic). -/
def random_index_and_usage_counter (candidates : List (Pubkey × LoadedProgram))
    (now : Slot) (i : Nat) : Option (Nat × Nat) :=
  (candidates[i]?).map (fun c => (i, c.2.decayed_usage_counter now))

/-- One iteration of the 2-random eviction loop, given the two sampled
indices. -/
def evictStep (c : ProgramCache) (candidates : List (Pubkey × LoadedProgram))
    (now : Slot) (i1 i2 : Nat) :
    Option (ProgramCache × List (Pubkey × LoadedProgram)) :=
  match random_index_and_usage_counter candidates now i1,
        random_index_and_usage_counter candidates now i2 with
  | some (index1, usage_counter1), some (index2, usage_counter2) =>
    (if usage_counter1 < usage_counter2 then
      swapRemove candidates index1
    else
      swapRemove candidates index2).bind (fun q =>
        (c.unload_program_entry q.1.1 q.1.2).map (fun c' => (c', q.2)))
  | _, _ => none

/-- The eviction loop, running a fixed number of iterations with sampled
index pairs supplied by the oracle `rand`. -/
def evictLoop (now : Slot) (rand : Nat → Nat × Nat) :
    Nat → Nat → ProgramCache × List (Pubkey × LoadedProgram) →
    Option (ProgramCache × List (Pubkey × LoadedProgram))
  | _, 0, st => some st
  | k, n + 1, st =>
    (evictStep st.1 st.2 now (rand k).1 (rand k).2).bind
      (evictLoop now rand (k + 1) n)

/-- `ProgramCache::evict_using_2s_random_selection`, with the random index
pairs supplied by the oracle `rand`. -/
def ProgramCache.evict_using_2s_random_selection (c : ProgramCache)
    (shrink_to : Nat) (now : Slot) (rand : Nat → Nat × Nat) :
    Option ProgramCache :=
  let candidates := c.get_flattened_entries true true
  let num_to_unload :=
    candidates.length - percentageApplyTo shrink_to MAX_LOADED_ENTRY_COUNT
  (evictLoop now rand 0 num_to_unload (c, candidates)).map (·.1)

/-- `ProgramCache::remove_programs`. -/
def ProgramCache.remove_programs (c : ProgramCache) (keys : List Pubkey) :
    ProgramCache :=
  { c with entries := keys.foldl (fun es k => es.filter (fun p => p.1 ≠ k)) c.entries }

/-! ### Concrete inputs used by the witness theorems -/

/-- A program entry for witnesses: loader-v4 program, deployed at 20,
effective at 21, loaded under environment 100. -/
def wEntry : LoadedProgram :=
  { program := .typed 100, account_size := 1, deployment_slot := 20,
    effective_slot := 21, tx_usage_counter := 2, ix_usage_counter := 3,
    latest_access_slot := 0 }

/-- A batch view at slot 20 containing `wEntry` at address 7. -/
def wBatch : LoadedProgramsForTxBatch :=
  { entries := [(7, wEntry)], slot := 20, environments := ⟨100, 200⟩,
    upcoming_environments := none, latest_root_epoch := 0, hit_max_limit := false }

/-- A cache with no fork graph set. -/
def wCacheNoGraph : ProgramCache :=
  { entries := [(7, ⟨[wEntry], none⟩)], latest_root_slot := 3, latest_root_epoch := 1,
    environments := ⟨100, 200⟩, upcoming_environments := some ⟨300, 400⟩,
    programs_to_recompile := [(7, wEntry)], stats := Stats.default,
    fork_graph := none, waiter_cookie := 5 }

/-! ### The composite key order -/

/-- Strict sortedness of `slot_versions` by `(effective_slot, deployment_slot)`
(invariant P1 of the specification). -/
def SortedByKey (xs : List LoadedProgram) : Prop :=
  List.Pairwise (fun a b => keyLt (keyOf a) (keyOf b)) xs

instance (xs : List LoadedProgram) : Decidable (SortedByKey xs) := by
  unfold SortedByKey; infer_instance

/-! ### Predicates and concrete inputs used by the claims -/

/-- Whether some existing entry of `sl` occupies the composite key of
`entry` with a transition `assign_program` rejects. -/
def occupiedInvalid (sl : List LoadedProgram) (entry : LoadedProgram) : Prop :=
  ∃ existing ∈ sl, keyOf existing = keyOf entry ∧
    validTransition existing.program entry.program = false

instance (sl : List LoadedProgram) (entry : LoadedProgram) :
    Decidable (occupiedInvalid sl entry) := by
  unfold occupiedInvalid; infer_instance

/-- A cache holding a `Closed` tombstone at key `(5, 5)` of address 7. -/
def wCacheClosed : ProgramCache :=
  { entries := [(7, ⟨[⟨.closed, 1, 5, 5, 3, 4, 0⟩], none⟩)], latest_root_slot := 0,
    latest_root_epoch := 0, environments := ⟨100, 200⟩,
    upcoming_environments := none, programs_to_recompile := [],
    stats := Stats.default, fork_graph := none, waiter_cookie := 0 }

/-- A compiled loader-v1 program at the same `(5, 5)` key. -/
def wEntryV0 : LoadedProgram := ⟨.legacyV0 100, 1, 5, 5, 10, 20, 0⟩

/-- The cooperative-loading lock at a key (absent second levels have no
lock). -/
def lockOf (es : List (Pubkey × SecondLevel)) (k : Pubkey) :
    Option (Slot × ThreadId) :=
  (lookupSL es k).bind (·.cooperative_loading_lock)

/-- The fields of an entry that the inner lookup of `extract` inspects. -/
def hitShape (p : Nat × LoadedProgram) : Nat × LoadedProgramType × Slot × Slot :=
  (p.1, p.2.program, p.2.deployment_slot, p.2.effective_slot)

/-- The fields of an entry that decide resolution (`findHit` never inspects
the usage counters). -/
def entryShape (e : LoadedProgram) : LoadedProgramType × Slot × Slot :=
  (e.program, e.deployment_slot, e.effective_slot)

/-- The resolution-relevant content of a (possibly absent) second level: an
absent level and an empty one resolve identically. -/
def slShapes (osl : Option SecondLevel) : List (LoadedProgramType × Slot × Slot) :=
  match osl with
  | none => []
  | some sl => sl.slot_versions.map entryShape

/-- A fork graph for witnesses where every slot is on the batch fork. -/
def wFork : ForkGraphFn := fun _ _ => .Equal

/-- Witness cache for C2: one cached program at address 7, nothing at 8. -/
def wCacheC2 : ProgramCache :=
  { entries := [(7, ⟨[⟨.typed 100, 1, 10, 11, 2, 0, 0⟩], none⟩)],
    latest_root_slot := 0, latest_root_epoch := 0, environments := ⟨100, 200⟩,
    upcoming_environments := none, programs_to_recompile := [],
    stats := Stats.default, fork_graph := some wFork, waiter_cookie := 0 }

/-- Witness batch view at slot 20. -/
def wBatch20 : LoadedProgramsForTxBatch :=
  { entries := [], slot := 20, environments := ⟨100, 200⟩,
    upcoming_environments := none, latest_root_epoch := 0, hit_max_limit := false }

/-- Witness request list: address 7 (a hit) and address 8 (a miss). -/
def wSf : List SearchItem := [(7, .noCriteria, 5), (8, .noCriteria, 3)]

/-- The cache state after the witness `extract` call: the hit entry's
counters bumped, the lock at address 8 claimed by worker 1. -/
def wCacheC2' : ProgramCache :=
  { entries := [(7, ⟨[⟨.typed 100, 1, 10, 11, 7, 0, 20⟩], none⟩),
      (8, ⟨[], some (20, 1)⟩)],
    latest_root_slot := 0, latest_root_epoch := 0, environments := ⟨100, 200⟩,
    upcoming_environments := none, programs_to_recompile := [],
    stats := { Stats.default with hits := 1, misses := 1 },
    fork_graph := some wFork, waiter_cookie := 0 }

/-- The batch view after the witness `extract` call. -/
def wBatch20' : LoadedProgramsForTxBatch :=
  { entries := [(7, ⟨.typed 100, 1, 10, 11, 7, 0, 20⟩)], slot := 20,
    environments := ⟨100, 200⟩, upcoming_environments := none,
    latest_root_epoch := 0, hit_max_limit := false }

/-- A concrete cache for the C5 counterexample and witness: entry of
environment 100 at address 7, current environments `(100, 200)`, upcoming
environments `(300, 400)`, rooted in epoch 1. -/
def wCacheEpoch : ProgramCache :=
  { entries := [(7, ⟨[⟨.typed 100, 1, 10, 11, 2, 0, 0⟩], none⟩)],
    latest_root_slot := 0, latest_root_epoch := 1, environments := ⟨100, 200⟩,
    upcoming_environments := some ⟨300, 400⟩, programs_to_recompile :=
      [(7, ⟨.typed 100, 1, 10, 11, 2, 0, 0⟩)],
    stats := Stats.default, fork_graph := some wFork, waiter_cookie := 0 }

/-- Eviction-witness candidate with a low usage counter. -/
def wEntryA : LoadedProgram := ⟨.typed 100, 1, 1, 2, 1, 0, 0⟩

/-- Eviction-witness candidate with a high usage counter. -/
def wEntryB : LoadedProgram := ⟨.typed 100, 1, 3, 4, 8, 0, 0⟩

/-- The eviction-witness candidate list. -/
def wCands : List (Pubkey × LoadedProgram) := [(1, wEntryA), (2, wEntryB)]

/-- Invariant P1 over the whole cache index: every second level's
`slot_versions` is strictly sorted by `(effective_slot, deployment_slot)`. -/
def SortedEntries (es : List (Pubkey × SecondLevel)) : Prop :=
  ∀ p ∈ es, SortedByKey p.2.slot_versions

instance (es : List (Pubkey × SecondLevel)) : Decidable (SortedEntries es) := by
  unfold SortedEntries; infer_instance

theorem keyLt_trans {a b c : Nat × Nat} (h1 : keyLt a b) (h2 : keyLt b c) :
    keyLt a c := by
  unfold keyLt at *; omega

theorem keyLt_irrefl (a : Nat × Nat) : ¬keyLt a a := by
  unfold keyLt; omega

/-- Trichotomy of `cmpKey` with respect to the key order. -/
theorem cmpKey_cases (a b : Nat × Nat) :
    (cmpKey a b = .lt ∧ keyLt a b) ∨ (cmpKey a b = .eq ∧ a = b) ∨
      (cmpKey a b = .gt ∧ keyLt b a) := by
  rcases a with ⟨a1, a2⟩; rcases b with ⟨b1, b2⟩
  unfold cmpKey keyLt
  rcases Nat.lt_trichotomy a1 b1 with h | h | h
  · left; rw [Nat.compare_eq_lt.2 h]; exact ⟨rfl, Or.inl h⟩
  · subst h
    rw [Nat.compare_eq_eq.2 rfl]
    rcases Nat.lt_trichotomy a2 b2 with h2 | h2 | h2
    · left; rw [Nat.compare_eq_lt.2 h2]; exact ⟨rfl, Or.inr ⟨rfl, h2⟩⟩
    · subst h2; rw [Nat.compare_eq_eq.2 rfl]; exact Or.inr (Or.inl ⟨rfl, rfl⟩)
    · right; right; rw [Nat.compare_eq_gt.2 h2]; exact ⟨rfl, Or.inr ⟨rfl, h2⟩⟩
  · right; right; rw [Nat.compare_eq_gt.2 h]; exact ⟨rfl, Or.inl h⟩

theorem cmpKey_lt {a b : Nat × Nat} (h : cmpKey a b = .lt) : keyLt a b := by
  rcases cmpKey_cases a b with ⟨_, hk⟩ | ⟨he, _⟩ | ⟨he, _⟩ <;> simp_all

theorem cmpKey_gt {a b : Nat × Nat} (h : cmpKey a b = .gt) : keyLt b a := by
  rcases cmpKey_cases a b with ⟨he, _⟩ | ⟨he, _⟩ | ⟨_, hk⟩ <;> simp_all

theorem cmpKey_eq {a b : Nat × Nat} (h : cmpKey a b = .eq) : a = b := by
  rcases cmpKey_cases a b with ⟨he, _⟩ | ⟨_, hk⟩ | ⟨he, _⟩ <;> simp_all

/-- In a strictly sorted list, elements with equal keys are at equal
positions. -/
theorem sorted_key_unique {xs : List LoadedProgram} (hs : SortedByKey xs)
    {i j : Nat} (hi : i < xs.length) (hj : j < xs.length)
    (h : keyOf xs[i] = keyOf xs[j]) : i = j := by
  rcases Nat.lt_trichotomy i j with hij | hij | hij
  · exact absurd (h ▸ List.pairwise_iff_getElem.1 hs i j hi hj hij)
      (keyLt_irrefl _)
  · exact hij
  · exact absurd (h ▸ List.pairwise_iff_getElem.1 hs j i hj hi hij)
      (keyLt_irrefl _)

/-! ### Correctness of the binary search -/

theorem binarySearchGo_inl_spec (xs : List LoadedProgram) (target : Nat × Nat) :
    ∀ n left right,
      ∀ i x, binarySearchGo xs target n left right = .inl (i, x) →
        xs[i]? = some x ∧ cmpKey (keyOf x) target = .eq ∧ left ≤ i ∧ i < right := by
  intro n
  induction n with
  | zero =>
    intro left right i x h
    rw [binarySearchGo] at h
    exact absurd h (by simp)
  | succ n ih =>
    intro left right i x h
    rw [binarySearchGo] at h
    by_cases hlr : left < right
    · rw [if_pos hlr] at h
      have hdiv : (right - left) / 2 < right - left :=
        Nat.div_lt_self (by omega) (by omega)
      split at h
      · exact absurd h (by simp)
      next y heq =>
        split at h
        next hc =>
          obtain ⟨h1, h2, hli, hir⟩ := ih _ _ i x h
          exact ⟨h1, h2, by omega, hir⟩
        next hc =>
          obtain ⟨h1, h2, hli, hir⟩ := ih _ _ i x h
          exact ⟨h1, h2, hli, by omega⟩
        next hc =>
          simp only [Sum.inl.injEq, Prod.mk.injEq] at h
          obtain ⟨rfl, rfl⟩ := h
          exact ⟨heq, hc, by omega, by omega⟩
    · rw [if_neg hlr] at h
      exact absurd h (by simp)

theorem binarySearchGo_inr_spec (xs : List LoadedProgram) (target : Nat × Nat)
    (hs : SortedByKey xs) :
    ∀ n left right, right - left ≤ n → left ≤ right → right ≤ xs.length →
      (∀ j, j < left → (hj : j < xs.length) → keyLt (keyOf xs[j]) target) →
      (∀ j, right ≤ j → (hj : j < xs.length) → keyLt target (keyOf xs[j])) →
      ∀ i, binarySearchGo xs target n left right = .inr i →
        left ≤ i ∧ i ≤ right ∧
          (∀ j, j < i → (hj : j < xs.length) → keyLt (keyOf xs[j]) target) ∧
          (∀ j, i ≤ j → (hj : j < xs.length) → keyLt target (keyOf xs[j])) := by
  intro n
  induction n with
  | zero =>
    intro left right hn hleft hlen hlo hhi i h
    rw [binarySearchGo] at h
    simp only [Sum.inr.injEq] at h
    subst h
    have hlr : left = right := by omega
    exact ⟨le_refl _, hleft, hlo, fun j hj hjl => hhi j (by omega) hjl⟩
  | succ n ih =>
    intro left right hn hleft hlen hlo hhi i h
    rw [binarySearchGo] at h
    by_cases hlr : left < right
    · rw [if_pos hlr] at h
      have hdiv : (right - left) / 2 < right - left :=
        Nat.div_lt_self (by omega) (by omega)
      have hmidlt : left + (right - left) / 2 < xs.length := by omega
      split at h
      next heq =>
        rw [List.getElem?_eq_getElem hmidlt] at heq
        exact absurd heq (by simp)
      next y heq =>
        rw [List.getElem?_eq_getElem hmidlt] at heq
        have hy : y = xs[left + (right - left) / 2] := by
          simpa [eq_comm] using heq
        subst hy
        split at h
        next hc =>
          -- key at mid is below the target: recurse right of mid
          have hmidlo : ∀ j, j < left + (right - left) / 2 + 1 →
              (hj : j < xs.length) → keyLt (keyOf xs[j]) target := by
            intro j hj hjl
            rcases Nat.lt_trichotomy j (left + (right - left) / 2) with hj2 | hj2 | hj2
            · exact keyLt_trans
                (List.pairwise_iff_getElem.1 hs j _ hjl hmidlt hj2) (cmpKey_lt hc)
            · subst hj2; exact cmpKey_lt hc
            · omega
          obtain ⟨h1, h2, h3, h4⟩ := ih _ _ (by omega) (by omega) hlen hmidlo hhi i h
          exact ⟨by omega, h2, h3, h4⟩
        next hc =>
          -- key at mid is above the target: recurse left of mid
          have hmidhi : ∀ j, left + (right - left) / 2 ≤ j →
              (hj : j < xs.length) → keyLt target (keyOf xs[j]) := by
            intro j hj hjl
            rcases Nat.lt_trichotomy (left + (right - left) / 2) j with hj2 | hj2 | hj2
            · exact keyLt_trans (cmpKey_gt hc)
                (List.pairwise_iff_getElem.1 hs _ j hmidlt hjl hj2)
            · subst hj2; exact cmpKey_gt hc
            · omega
          obtain ⟨h1, h2, h3, h4⟩ := ih _ _ (by omega) (by omega) (by omega) hlo hmidhi i h
          exact ⟨h1, by omega, h3, fun j hj hjl =>
            if hj2 : j < left + (right - left) / 2 then h4 j hj hjl
            else hmidhi j (by omega) hjl⟩
        next hc =>
          exact absurd h (by simp)
    · rw [if_neg hlr] at h
      simp only [Sum.inr.injEq] at h
      subst h
      have : left = right := by omega
      exact ⟨le_refl _, hleft, hlo, fun j hj hjl => hhi j (by omega) hjl⟩

/-- `binary_search_by` success: the returned element is at the returned index
and has exactly the target key. -/
theorem binarySearch_inl {xs : List LoadedProgram} {target : Nat × Nat}
    {i : Nat} {x : LoadedProgram} (h : binarySearch xs target = .inl (i, x)) :
    xs[i]? = some x ∧ keyOf x = target := by
  obtain ⟨h1, h2, _, _⟩ := binarySearchGo_inl_spec xs target xs.length 0 xs.length
    i x h
  exact ⟨h1, cmpKey_eq h2⟩

/-- `binary_search_by` failure on a sorted list: the returned insertion index
splits the list into keys strictly below and strictly above the target. -/
theorem binarySearch_inr {xs : List LoadedProgram} {target : Nat × Nat} {i : Nat}
    (hs : SortedByKey xs) (h : binarySearch xs target = .inr i) :
    i ≤ xs.length ∧
      (∀ j, j < i → (hj : j < xs.length) → keyLt (keyOf xs[j]) target) ∧
      (∀ j, i ≤ j → (hj : j < xs.length) → keyLt target (keyOf xs[j])) := by
  obtain ⟨_, h2, h3, h4⟩ := binarySearchGo_inr_spec xs target hs xs.length 0 xs.length
    (by omega) (by omega) (le_refl _) (by omega) (fun j hj hjl => by omega) i h
  exact ⟨h2, h3, h4⟩

/-- On a sorted list containing an element with the target key, the binary
search finds exactly that element. -/
theorem binarySearch_found {xs : List LoadedProgram} {target : Nat × Nat}
    {e : LoadedProgram} (hs : SortedByKey xs) {m : Nat} (hm : m < xs.length)
    (hme : xs[m] = e) (hk : keyOf e = target) :
    binarySearch xs target = .inl (m, e) := by
  rcases hr : binarySearch xs target with ⟨i, x⟩ | i
  · obtain ⟨h1, h2⟩ := binarySearch_inl hr
    have hix : i < xs.length := by
      by_contra hge
      rw [List.getElem?_eq_none (by omega)] at h1
      exact absurd h1 (by simp)
    rw [List.getElem?_eq_getElem hix] at h1
    have hxe : xs[i] = x := by simpa [eq_comm] using h1
    have : i = m := sorted_key_unique hs hix hm (by rw [hxe, hme, h2, hk])
    subst this
    rw [hxe] at hme
    rw [hme]
  · obtain ⟨_, hlo, hhi⟩ := binarySearch_inr hs hr
    rcases Nat.lt_or_ge m i with hmi | hmi
    · exact absurd (hk ▸ hme ▸ hlo m hmi hm) (keyLt_irrefl _)
    · exact absurd (hk ▸ hme ▸ hhi m hmi hm) (keyLt_irrefl _)

/-! ### Sortedness preservation for `set` and `insertIdx` -/

/-- Sortedness characterized through `getElem?` (avoids embedded bound
proofs). -/
theorem sortedByKey_iff {xs : List LoadedProgram} :
    SortedByKey xs ↔ ∀ (p q : Nat) (x y : LoadedProgram), p < q →
      xs[p]? = some x → xs[q]? = some y → keyLt (keyOf x) (keyOf y) := by
  constructor
  · intro hs p q x y hpq hx hy
    obtain ⟨hq, rfl⟩ := List.getElem?_eq_some.1 hy
    obtain ⟨hp, rfl⟩ := List.getElem?_eq_some.1 hx
    exact List.pairwise_iff_getElem.1 hs p q hp hq hpq
  · intro h
    refine List.pairwise_iff_getElem.2 fun p q hp hq hpq => ?_
    exact h p q _ _ hpq (List.getElem?_eq_getElem hp) (List.getElem?_eq_getElem hq)

/-- Replacing an element by one with the same key preserves sortedness. -/
theorem sorted_set_of_keyEq {xs : List LoadedProgram} (hs : SortedByKey xs)
    {i : Nat} {old e : LoadedProgram} (hold : xs[i]? = some old)
    (hk : keyOf e = keyOf old) : SortedByKey (xs.set i e) := by
  have hi : i < xs.length := by
    by_contra hge
    rw [List.getElem?_eq_none (by omega)] at hold
    exact absurd hold (by simp)
  refine sortedByKey_iff.2 fun p q x y hpq hx hy => ?_
  rw [List.getElem?_set] at hx hy
  by_cases hip : i = p <;> by_cases hiq : i = q
  · omega
  · rw [if_pos hip, if_pos (by omega)] at hx
    rw [if_neg hiq] at hy
    obtain rfl : e = x := by simpa using hx
    rw [hk]
    exact sortedByKey_iff.1 hs i q old y (by omega) hold hy
  · rw [if_neg hip] at hx
    rw [if_pos hiq, if_pos (by omega)] at hy
    obtain rfl : e = y := by simpa using hy
    rw [hk]
    exact sortedByKey_iff.1 hs p i x old (by omega) hx hold
  · rw [if_neg hip] at hx
    rw [if_neg hiq] at hy
    exact sortedByKey_iff.1 hs p q x y hpq hx hy

/-- Inserting an element at a position where all earlier keys are below it
and all later keys above it preserves sortedness. -/
theorem sorted_insertIdx {xs : List LoadedProgram} (hs : SortedByKey xs)
    {i : Nat} (hi : i ≤ xs.length) {e : LoadedProgram}
    (hlo : ∀ j, j < i → (hj : j < xs.length) → keyLt (keyOf xs[j]) (keyOf e))
    (hhi : ∀ j, i ≤ j → (hj : j < xs.length) → keyLt (keyOf e) (keyOf xs[j])) :
    SortedByKey (xs.insertIdx i e) := by
  have hlen : (xs.insertIdx i e).length = xs.length + 1 :=
    List.length_insertIdx i xs hi
  refine List.pairwise_iff_getElem.2 fun p q hp hq hpq => ?_
  rw [hlen] at hp hq
  rcases Nat.lt_trichotomy q i with hqi | hqi | hqi
  · -- both strictly before the insertion point
    rw [List.getElem_insertIdx_of_lt xs e i p (by omega) (by omega),
      List.getElem_insertIdx_of_lt xs e i q (by omega) (by omega)]
    exact List.pairwise_iff_getElem.1 hs p q (by omega) (by omega) hpq
  · -- the later element is the inserted one
    subst hqi
    rw [List.getElem_insertIdx_of_lt xs e q p (by omega) (by omega),
      List.getElem_insertIdx_self xs e q (by omega)]
    exact hlo p (by omega) (by omega)
  · -- the later element comes from after the insertion point
    obtain ⟨k, rfl⟩ : ∃ k, q = i + k + 1 := ⟨q - i - 1, by omega⟩
    rw [List.getElem_insertIdx_add_succ xs e i k (by omega)]
    rcases Nat.lt_trichotomy p i with hpi | hpi | hpi
    · rw [List.getElem_insertIdx_of_lt xs e i p hpi (by omega)]
      exact List.pairwise_iff_getElem.1 hs p (i + k) (by omega) (by omega) (by omega)
    · subst hpi
      rw [List.getElem_insertIdx_self xs e p (by omega)]
      exact hhi (p + k) (by omega) (by omega)
    · obtain ⟨k', rfl⟩ : ∃ k', p = i + k' + 1 := ⟨p - i - 1, by omega⟩
      rw [List.getElem_insertIdx_add_succ xs e i k' (by omega)]
      exact List.pairwise_iff_getElem.1 hs (i + k') (i + k) (by omega) (by omega)
        (by omega)

/-! ### Association-list facts -/

theorem lookupSL_append_right {es : List (Pubkey × SecondLevel)} {k : Pubkey}
    (h : lookupSL es k = none) (tl : List (Pubkey × SecondLevel)) :
    lookupSL (es ++ tl) k = lookupSL tl k := by
  induction es with
  | nil => rfl
  | cons p rest ih =>
    simp only [lookupSL, List.cons_append] at h ⊢
    rcases hb : (p.1 == k) with _ | _
    · rw [hb] at h
      simp only [Bool.false_eq_true, if_false] at h ⊢
      exact ih h
    · rw [hb] at h
      exact absurd h (by simp)

theorem lookupSL_orDefault (es : List (Pubkey × SecondLevel)) (k : Pubkey) :
    lookupSL (orDefaultSL es k) k
      = some ((lookupSL es k).getD SecondLevel.default) := by
  unfold orDefaultSL containsSL
  rcases h : lookupSL es k with _ | v
  · simp only [h, Option.isSome_none, Bool.false_eq_true, if_false, Option.getD_none]
    rw [lookupSL_append_right h]
    simp [lookupSL]
  · simp [h]

/-- `orDefaultSL` is the identity when the key is present. -/
theorem orDefault_of_contains {es : List (Pubkey × SecondLevel)} {k : Pubkey}
    {v : SecondLevel} (h : lookupSL es k = some v) : orDefaultSL es k = es := by
  unfold orDefaultSL containsSL
  simp [h]

/-! ## Claims C3, C6, C7: `assign_program` -/

/-- **C3 (amended).** `assign_program` returns `true` iff the second level
already contained an entry at the same `(effective_slot, deployment_slot)`
composite key *and* the replacement transition is invalid; it returns
`false` both when inserting at a free key and when performing a valid
replacement at an occupied key. -/
theorem claim_C3 (c : ProgramCache) (key : Pubkey) (entry : LoadedProgram)
    (hs : SortedByKey ((lookupSL c.entries key).getD SecondLevel.default).slot_versions) :
    (c.assign_program key entry).1 = true ↔
      occupiedInvalid ((lookupSL c.entries key).getD SecondLevel.default).slot_versions
        entry := by
  have hlk := lookupSL_orDefault c.entries key
  set L := (lookupSL c.entries key).getD SecondLevel.default with hLdef
  simp only [ProgramCache.assign_program]
  rw [hlk]
  simp only [Option.getD_some]
  rcases hbs : binarySearch L.slot_versions (keyOf entry) with ⟨i, x⟩ | i
  · obtain ⟨hx, hk⟩ := binarySearch_inl hbs
    rcases hv : validTransition x.program entry.program with _ | _
    · -- invalid transition at the occupied key: returns true
      simp only [hv, Bool.false_eq_true, if_false]
      constructor
      · intro _
        obtain ⟨hilt, hxe⟩ := List.getElem?_eq_some.1 hx
        exact ⟨x, hxe ▸ List.getElem_mem hilt, hk, hv⟩
      · intro _; trivial
    · -- valid replacement: returns false, and indeed no occupying entry
      -- can have an invalid transition (keys are unique in a sorted list)
      simp only [hv, if_true]
      constructor
      · intro hfalse; exact absurd hfalse (by simp)
      · rintro ⟨existing, hmem, hkey, hinv⟩
        obtain ⟨m, hmlt, hme⟩ := List.mem_iff_getElem.1 hmem
        obtain ⟨hilt, hxe⟩ := List.getElem?_eq_some.1 hx
        have : m = i := sorted_key_unique hs hmlt hilt
          (by rw [hme, hxe, hkey, hk])
        subst this
        rw [hme] at hxe
        subst hxe
        rw [hinv] at hv
        exact absurd hv (by simp)
  · -- free key: returns false, and no entry has the target key
    obtain ⟨_, hlo, hhi⟩ := binarySearch_inr hs hbs
    simp only []
    constructor
    · intro hfalse; exact absurd hfalse (by simp)
    · rintro ⟨existing, hmem, hkey, _⟩
      obtain ⟨m, hmlt, hme⟩ := List.mem_iff_getElem.1 hmem
      rcases Nat.lt_or_ge m i with hmi | hmi
      · exact absurd (hkey ▸ hme ▸ hlo m hmi hmlt) (keyLt_irrefl _)
      · exact absurd (hkey ▸ hme ▸ hhi m hmi hmlt) (keyLt_irrefl _)

/-- **C3, counterexample.** The claim "returns `true` iff the slot was
already occupied, regardless of whether the replacement transition is a
valid one" is false: replacing the `Closed` tombstone at the occupied key
`(5, 5)` by a compiled program (a *valid* transition) returns `false`. -/
theorem claim_C3_counterexample :
    (∃ existing ∈
        ((lookupSL wCacheClosed.entries 7).getD SecondLevel.default).slot_versions,
      keyOf existing = keyOf wEntryV0) ∧
      (wCacheClosed.assign_program 7 wEntryV0).1 = false := by
  decide

/-- Witness for (amended) C3: both directions at concrete inputs — the
occupied-invalid case returns `true`, the valid replacement returns
`false`. -/
theorem claim_C3_witness :
    SortedByKey ((lookupSL wCacheClosed.entries 7).getD SecondLevel.default).slot_versions
      ∧ ((wCacheClosed.assign_program 7 wEntryV0).1 = true ↔
          occupiedInvalid
            ((lookupSL wCacheClosed.entries 7).getD SecondLevel.default).slot_versions
            wEntryV0) :=
  ⟨by decide, claim_C3 wCacheClosed 7 wEntryV0 (by decide)⟩

/-- **C6.** When `assign_program` finds an existing entry at the same
`(effective_slot, deployment_slot)` key and the payload transition is
neither `Builtin → Builtin` nor `Closed/Unloaded → LegacyV0/LegacyV1/Typed`,
it leaves the entries map (hence `slot_versions` and the existing entry)
unchanged, increments the `replacements` statistic by exactly one (as a
wrapping `u64`), and returns `true`. -/
theorem claim_C6 (c : ProgramCache) (key : Pubkey) (entry : LoadedProgram)
    (L : SecondLevel) (hL : lookupSL c.entries key = some L)
    (hs : SortedByKey L.slot_versions)
    (existing : LoadedProgram) (hmem : existing ∈ L.slot_versions)
    (hkey : keyOf existing = keyOf entry)
    (hinv : validTransition existing.program entry.program = false) :
    (c.assign_program key entry).1 = true
      ∧ (c.assign_program key entry).2.entries = c.entries
      ∧ (c.assign_program key entry).2.stats.replacements
          = (c.stats.replacements + 1) % U64 := by
  have hod : orDefaultSL c.entries key = c.entries := orDefault_of_contains hL
  obtain ⟨m, hmlt, hme⟩ := List.mem_iff_getElem.1 hmem
  have hbs : binarySearch L.slot_versions (keyOf entry) = .inl (m, existing) :=
    binarySearch_found hs hmlt hme hkey
  simp only [ProgramCache.assign_program]
  rw [hod, hL]
  simp only [Option.getD_some, hbs, hinv, Bool.false_eq_true, if_false]
  refine ⟨?_, ?_, ?_⟩ <;> trivial

/-- Witness for C6: an illegal `Closed → Closed` re-assignment at the
occupied key `(5, 5)`. -/
theorem claim_C6_witness :
    ((wCacheClosed.assign_program 7 ⟨.closed, 0, 5, 5, 0, 0, 0⟩).1 = true
      ∧ (wCacheClosed.assign_program 7 ⟨.closed, 0, 5, 5, 0, 0, 0⟩).2.entries
          = wCacheClosed.entries
      ∧ (wCacheClosed.assign_program 7 ⟨.closed, 0, 5, 5, 0, 0, 0⟩).2.stats.replacements
          = (wCacheClosed.stats.replacements + 1) % U64) :=
  claim_C6 wCacheClosed 7 ⟨.closed, 0, 5, 5, 0, 0, 0⟩ ⟨[⟨.closed, 1, 5, 5, 3, 4, 0⟩], none⟩
    (by decide) (by decide) ⟨.closed, 1, 5, 5, 3, 4, 0⟩ (by decide) (by decide) (by decide)

/-- **C7.** When `assign_program` performs a valid replacement at an occupied
key, the existing entry's `tx_usage` and `ix_usage` counter values are added
(as wrapping `u64`) into the incoming entry's counters, and that updated
incoming entry replaces the existing one in place in `slot_versions`. -/
theorem claim_C7 (c : ProgramCache) (key : Pubkey) (entry : LoadedProgram)
    (L : SecondLevel) (hL : lookupSL c.entries key = some L)
    (hs : SortedByKey L.slot_versions)
    (m : Nat) (existing : LoadedProgram) (hm : L.slot_versions[m]? = some existing)
    (hkey : keyOf existing = keyOf entry)
    (hvalid : validTransition existing.program entry.program = true) :
    (c.assign_program key entry).1 = false
      ∧ (c.assign_program key entry).2.entries
          = setSL c.entries key
              { L with
                slot_versions := L.slot_versions.set m
                  { entry with
                    tx_usage_counter :=
                      (entry.tx_usage_counter + existing.tx_usage_counter) % U64
                    ix_usage_counter :=
                      (entry.ix_usage_counter + existing.ix_usage_counter) % U64 } } := by
  have hod : orDefaultSL c.entries key = c.entries := orDefault_of_contains hL
  obtain ⟨hmlt, hme⟩ := List.getElem?_eq_some.1 hm
  have hbs : binarySearch L.slot_versions (keyOf entry) = .inl (m, existing) :=
    binarySearch_found hs hmlt hme hkey
  simp only [ProgramCache.assign_program]
  rw [hod, hL]
  simp only [Option.getD_some, hbs, hvalid, if_true]
  refine ⟨?_, ?_⟩ <;> trivial

/-- Witness for C7: the valid `Closed → LegacyV0` replacement folds the
counters (10+3, 20+4) and replaces in place. -/
theorem claim_C7_witness :
    ((wCacheClosed.assign_program 7 wEntryV0).1 = false
      ∧ (wCacheClosed.assign_program 7 wEntryV0).2.entries
          = setSL wCacheClosed.entries 7
              { slot_versions := [⟨.legacyV0 100, 1, 5, 5, (10 + 3) % U64, (20 + 4) % U64, 0⟩],
                cooperative_loading_lock := none }) := by
  have h := claim_C7 wCacheClosed 7 wEntryV0 ⟨[⟨.closed, 1, 5, 5, 3, 4, 0⟩], none⟩
    (by decide) (by decide) 0 ⟨.closed, 1, 5, 5, 3, 4, 0⟩ (by decide) (by decide) (by decide)
  exact h

/-! ## Claim C2: the cooperative-loading task assignment of `extract` -/

theorem lookupSL_setSL_self {es : List (Pubkey × SecondLevel)} {k : Pubkey}
    {w : SecondLevel} (h : lookupSL es k = some w) (v : SecondLevel) :
    lookupSL (setSL es k v) k = some v := by
  induction es with
  | nil => simp [lookupSL] at h
  | cons p rest ih =>
    simp only [lookupSL, setSL] at h ⊢
    rcases hb : (p.1 == k) with _ | _
    · rw [hb] at h
      simp only [Bool.false_eq_true, if_false] at h ⊢
      simp only [lookupSL, hb, Bool.false_eq_true, if_false]
      exact ih h
    · simp only [if_true]
      simp [lookupSL, hb]

theorem lookupSL_setSL_ne {es : List (Pubkey × SecondLevel)} {k k' : Pubkey}
    (hne : k' ≠ k) (v : SecondLevel) :
    lookupSL (setSL es k v) k' = lookupSL es k' := by
  induction es with
  | nil => rfl
  | cons p rest ih =>
    simp only [lookupSL, setSL]
    rcases hb : (p.1 == k) with _ | _
    · simp only [Bool.false_eq_true, if_false, lookupSL]
      rcases hb' : (p.1 == k') with _ | _
      · simp only [Bool.false_eq_true, if_false]
        exact ih
      · simp only [if_true]
    · simp only [if_true, lookupSL]
      have hpk' : (p.1 == k') = false := by
        have hpk : p.1 = k := by simpa using hb
        have : ¬(k = k') := fun heq => hne heq.symm
        simp [hpk, this]
      simp only [hpk', show ((p.1, v).1 == k') = false from hpk', Bool.false_eq_true,
        if_false]
      exact ih

theorem setSL_of_absent {es : List (Pubkey × SecondLevel)} {k : Pubkey}
    (h : lookupSL es k = none) (v : SecondLevel) : setSL es k v = es := by
  induction es with
  | nil => rfl
  | cons p rest ih =>
    simp only [lookupSL, setSL] at h ⊢
    rcases hb : (p.1 == k) with _ | _
    · rw [hb] at h
      simp only [Bool.false_eq_true, if_false] at h ⊢
      rw [ih h]
    · rw [hb] at h
      exact absurd h (by simp)

theorem lookupSL_append_single_ne {k k' : Pubkey} (hne : k' ≠ k)
    (es : List (Pubkey × SecondLevel)) (d : SecondLevel) :
    lookupSL (es ++ [(k, d)]) k' = lookupSL es k' := by
  induction es with
  | nil =>
    have hkk' : ¬(k = k') := fun heq => hne heq.symm
    simp [lookupSL, hkk']
  | cons p rest ih =>
    simp only [List.cons_append, lookupSL]
    rcases hb : (p.1 == k') with _ | _ <;> simp [hb, ih]

theorem lookupSL_orDefault_ne {es : List (Pubkey × SecondLevel)} {k k' : Pubkey}
    (hne : k' ≠ k) : lookupSL (orDefaultSL es k) k' = lookupSL es k' := by
  unfold orDefaultSL
  split
  · rfl
  · exact lookupSL_append_single_ne hne es _

/-- The lock of the second level observed through `or_default`. -/
theorem getD_lock (es : List (Pubkey × SecondLevel)) (k : Pubkey) :
    ((lookupSL es k).getD SecondLevel.default).cooperative_loading_lock
      = lockOf es k := by
  unfold lockOf
  rcases h : lookupSL es k with _ | v <;> simp [SecondLevel.default]

/-- `missPath` with a task already selected does nothing. -/
theorem missPath_some (bs : Slot) (w : ThreadId) (es : List (Pubkey × SecondLevel))
    (t : Pubkey × Nat) (it : SearchItem) :
    missPath bs w es (some t) it = (es, some t) := rfl

/-- `missPath` with no task and a free lock claims it. -/
theorem missPath_claim {es : List (Pubkey × SecondLevel)} {it : SearchItem}
    (bs : Slot) (w : ThreadId) (h : lockOf es it.1 = none) :
    missPath bs w es none it
      = (setSL (orDefaultSL es it.1) it.1
          { (lookupSL es it.1).getD SecondLevel.default with
            cooperative_loading_lock := some (bs, w) },
         some (it.1, it.2.2)) := by
  simp only [missPath]
  rw [lookupSL_orDefault]
  simp only [Option.getD_some]
  rw [show ((lookupSL es it.1).getD SecondLevel.default).cooperative_loading_lock
      = none from (getD_lock es it.1).trans h]

/-- `missPath` with no task but a held lock changes nothing. -/
theorem missPath_noclaim {es : List (Pubkey × SecondLevel)} {it : SearchItem}
    {l : Slot × ThreadId} (bs : Slot) (w : ThreadId)
    (h : lockOf es it.1 = some l) :
    missPath bs w es none it = (es, none) := by
  have hlk : ∃ sl, lookupSL es it.1 = some sl ∧ sl.cooperative_loading_lock = some l := by
    unfold lockOf at h
    rcases hq : lookupSL es it.1 with _ | sl
    · rw [hq] at h; exact absurd h (by simp)
    · rw [hq] at h; exact ⟨sl, rfl, by simpa using h⟩
  obtain ⟨sl, hsl, hlock⟩ := hlk
  simp only [missPath]
  rw [lookupSL_orDefault]
  simp only [Option.getD_some]
  rw [show ((lookupSL es it.1).getD SecondLevel.default).cooperative_loading_lock
      = some l from (getD_lock es it.1).trans h]
  rw [orDefault_of_contains hsl]

theorem enumFrom_map_hitShape_congr {l₁ l₂ : List LoadedProgram}
    (h : l₁.map entryShape = l₂.map entryShape) (n : Nat) :
    (List.enumFrom n l₁).map hitShape = (List.enumFrom n l₂).map hitShape := by
  induction l₁ generalizing l₂ n with
  | nil =>
    have : l₂ = [] := by
      cases l₂ with
      | nil => rfl
      | cons x xs => exact absurd h (by simp)
    subst this; rfl
  | cons x xs ih =>
    cases l₂ with
    | nil => exact absurd h (by simp)
    | cons y ys =>
      simp only [List.map_cons, List.cons.injEq] at h
      simp only [List.enumFrom_cons, List.map_cons, List.cons.injEq]
      refine ⟨?_, ih h.2 (n + 1)⟩
      simp only [hitShape, entryShape, Prod.mk.injEq] at h ⊢
      simp_all

theorem findHit_congr (fg : ForkGraphFn) (lr bs : Slot)
    (envs : ProgramRuntimeEnvironments) (crit : LoadedProgramMatchCriteria) :
    ∀ l₁ l₂ : List (Nat × LoadedProgram), l₁.map hitShape = l₂.map hitShape →
      (findHit fg lr bs envs crit l₁).isNone = (findHit fg lr bs envs crit l₂).isNone := by
  intro l₁
  induction l₁ with
  | nil =>
    intro l₂ h
    cases l₂ with
    | nil => rfl
    | cons q qs => exact absurd h (by simp)
  | cons p ps ih =>
    intro l₂ h
    cases l₂ with
    | nil => exact absurd h (by simp)
    | cons q qs =>
      simp only [List.map_cons, List.cons.injEq] at h
      obtain ⟨hpq, hps⟩ := h
      simp only [hitShape, Prod.mk.injEq] at hpq
      obtain ⟨hidx, hprog, hdep, heff⟩ := hpq
      rcases p with ⟨i, e⟩; rcases q with ⟨j, f⟩
      simp only at hidx hprog hdep heff
      have hvis : visibleOnFork fg lr bs e = visibleOnFork fg lr bs f := by
        unfold visibleOnFork; rw [hdep]
      have henv : matches_environment e envs = matches_environment f envs := by
        unfold matches_environment; rw [hprog]
      have htom : e.is_tombstone = f.is_tombstone := by
        unfold LoadedProgram.is_tombstone; rw [hprog]
      have hcrit : matches_loaded_program_criteria e crit
          = matches_loaded_program_criteria f crit := by
        unfold matches_loaded_program_criteria
        cases crit <;> simp only [hdep, htom]
      have himp : e.is_implicit_delay_visibility_tombstone bs
          = f.is_implicit_delay_visibility_tombstone bs := by
        unfold LoadedProgram.is_implicit_delay_visibility_tombstone
        rw [hprog, hdep, heff]
      simp only [findHit]
      rw [hvis, heff, henv, hcrit, hprog, himp]
      rcases visibleOnFork fg lr bs f with _ | _
      · simp only [Bool.false_eq_true, if_false]
        exact ih qs hps
      · simp only [if_true]
        rcases (decide (bs ≥ f.effective_slot) && matches_environment f envs) with _ | _
        · simp only [Bool.false_eq_true, if_false]
          rcases f.is_implicit_delay_visibility_tombstone bs with _ | _
          · simp only [Bool.false_eq_true, if_false]
            exact ih qs hps
          · simp only [if_true, Option.isNone_some]
        · simp only [if_true]
          rcases matches_loaded_program_criteria f crit with _ | _
          · simp only [Bool.not_false, if_true, Option.isNone_none]
          · simp only [Bool.not_true, Bool.false_eq_true, if_false]
            rcases f.program with _ | _ | _ | _ | _ | _ | _ | _ <;> simp

/-- The miss test of `resolveItem` as an explicit function of the lookup and
the inner scan. -/
theorem resolveItem_isNone (fg : ForkGraphFn) (lr : Slot)
    (es : List (Pubkey × SecondLevel)) (b : LoadedProgramsForTxBatch)
    (it : SearchItem) :
    (resolveItem fg lr es b it).isNone
      = (match lookupSL es it.1 with
        | none => true
        | some sl =>
          (findHit fg lr b.slot b.environments it.2.1
            sl.slot_versions.enum.reverse).isNone) := by
  unfold resolveItem
  rcases h1 : lookupSL es it.1 with _ | sl
  · rfl
  · rcases h2 : findHit fg lr b.slot b.environments it.2.1
        sl.slot_versions.enum.reverse with _ | hit
    · simp [h2]
    · rcases hit with ⟨i, e⟩ | d <;> simp [h2]

/-- Resolution of a search item depends on the cache only through the shape
of the second level at its own key, and on the batch only through its slot
and environments. -/
theorem resolveItem_isNone_eq (fg : ForkGraphFn) (lr : Slot)
    {es es' : List (Pubkey × SecondLevel)}
    {b b' : LoadedProgramsForTxBatch} (hslot : b'.slot = b.slot)
    (henv : b'.environments = b.environments) (it : SearchItem)
    (hm : slShapes (lookupSL es' it.1) = slShapes (lookupSL es it.1)) :
    (resolveItem fg lr es' b' it).isNone = (resolveItem fg lr es b it).isNone := by
  rw [resolveItem_isNone, resolveItem_isNone, hslot, henv]
  rcases h1 : lookupSL es' it.1 with _ | sl' <;> rcases h2 : lookupSL es it.1 with _ | sl
  · rfl
  · rw [h1, h2] at hm
    simp only [slShapes] at hm
    have hnil : sl.slot_versions = [] := by
      cases hv : sl.slot_versions with
      | nil => rfl
      | cons x xs => rw [hv] at hm; exact absurd hm (by simp)
    simp [hnil, findHit]
  · rw [h1, h2] at hm
    simp only [slShapes] at hm
    have hnil : sl'.slot_versions = [] := by
      cases hv : sl'.slot_versions with
      | nil => rfl
      | cons x xs => rw [hv] at hm; exact absurd hm (by simp)
    simp [hnil, findHit]
  · rw [h1, h2] at hm
    simp only [slShapes] at hm
    have hmap : sl'.slot_versions.enum.reverse.map hitShape
        = sl.slot_versions.enum.reverse.map hitShape := by
      rw [List.map_reverse, List.map_reverse]
      exact congrArg List.reverse (enumFrom_map_hitShape_congr hm 0)
    exact findHit_congr fg lr b.slot b.environments it.2.1 _ _ hmap

/-- A `real` hit of `findHit` names an element of the scanned list. -/
theorem findHit_real_mem {fg : ForkGraphFn} {lr bs : Slot}
    {envs : ProgramRuntimeEnvironments} {crit : LoadedProgramMatchCriteria} :
    ∀ {l : List (Nat × LoadedProgram)} {i : Nat} {e : LoadedProgram},
      findHit fg lr bs envs crit l = some (.real i e) → (i, e) ∈ l := by
  intro l
  induction l with
  | nil => intro i e h; exact absurd h (by simp [findHit])
  | cons p ps ih =>
    intro i e h
    simp only [findHit] at h
    rcases p with ⟨j, f⟩
    by_cases hvis : visibleOnFork fg lr bs f
    · rw [if_pos hvis] at h
      by_cases hc : (decide (bs ≥ f.effective_slot) && matches_environment f envs) = true
      · rw [if_pos hc] at h
        by_cases hcrit : matches_loaded_program_criteria f crit
        · simp only [hcrit, Bool.not_true, Bool.false_eq_true, if_false] at h
          rcases hp : f.program with _ | _ | _ | _ | _ | _ | _ | _ <;>
            rw [hp] at h <;> simp_all
        · simp only [hcrit, Bool.not_false, if_true] at h
          exact absurd h (by simp)
      · rw [if_neg hc] at h
        by_cases himp : f.is_implicit_delay_visibility_tombstone bs
        · rw [if_pos himp] at h
          simp only [Option.some.injEq] at h
          exact absurd h (by simp)
        · rw [if_neg himp] at h
          exact List.mem_cons_of_mem _ (ih h)
    · rw [if_neg hvis] at h
      exact List.mem_cons_of_mem _ (ih h)

/-- Counter updates do not change the shape of a list. -/
theorem map_entryShape_set {l : List LoadedProgram} {i : Nat} {e e' : LoadedProgram}
    (h : l[i]? = some e) (hsh : entryShape e' = entryShape e) :
    (l.set i e').map entryShape = l.map entryShape := by
  induction l generalizing i with
  | nil => exact absurd h (by simp)
  | cons x xs ih =>
    cases i with
    | zero =>
      simp only [List.getElem?_cons_zero, Option.some.injEq] at h
      subst h
      simp only [List.set_cons_zero, List.map_cons, hsh]
    | succ j =>
      simp only [List.getElem?_cons_succ] at h
      simp only [List.set_cons_succ, List.map_cons, ih h]

/-- A resolved search item changes neither the shapes nor the locks of the
cache, and keeps the batch slot and environments. -/
theorem resolveItem_state {fg : ForkGraphFn} {lr : Slot}
    {es : List (Pubkey × SecondLevel)} {b : LoadedProgramsForTxBatch}
    {it : SearchItem} {es' : List (Pubkey × SecondLevel)}
    {b' : LoadedProgramsForTxBatch}
    (h : resolveItem fg lr es b it = some (es', b')) :
    (∀ k, slShapes (lookupSL es' k) = slShapes (lookupSL es k))
      ∧ (∀ k, lockOf es' k = lockOf es k)
      ∧ b'.slot = b.slot ∧ b'.environments = b.environments := by
  unfold resolveItem at h
  rcases h1 : lookupSL es it.1 with _ | sl
  · rw [h1] at h; exact absurd h (by simp)
  · simp only [h1] at h
    rcases h2 : findHit fg lr b.slot b.environments it.2.1
        sl.slot_versions.enum.reverse with _ | hit
    · simp only [h2] at h; exact absurd h (by simp)
    · simp only [h2] at h
      rcases hit with ⟨i, e⟩ | dep
      · simp only [Option.some.injEq, Prod.mk.injEq] at h
        obtain ⟨hes, hb⟩ := h
        have hmem : (i, e) ∈ sl.slot_versions.enum.reverse := findHit_real_mem h2
        have hget : sl.slot_versions[i]? = some e :=
          List.mk_mem_enum_iff_getElem?.1 (List.mem_reverse.1 hmem)
        subst hes hb
        refine ⟨fun k => ?_, fun k => ?_, rfl, rfl⟩
        · by_cases hk : k = it.1
          · subst hk
            rw [lookupSL_setSL_self h1, h1]
            simp only [slShapes]
            exact map_entryShape_set hget rfl
          · rw [lookupSL_setSL_ne hk]
        · by_cases hk : k = it.1
          · subst hk
            rw [lockOf, lockOf, lookupSL_setSL_self h1, h1]
            rfl
          · rw [lockOf, lockOf, lookupSL_setSL_ne hk]
      · simp only [Option.some.injEq, Prod.mk.injEq] at h
        obtain ⟨hes, hb⟩ := h
        subst hes hb
        exact ⟨fun k => rfl, fun k => rfl, rfl, rfl⟩

/-- The claim (or no-op) of `missPath` changes no shapes, and no lock other
than the claimed key. -/
theorem missPath_state {bs : Slot} {w : ThreadId}
    {es : List (Pubkey × SecondLevel)} {task : Option (Pubkey × Nat)}
    {it : SearchItem} :
    (∀ k, slShapes (lookupSL (missPath bs w es task it).1 k)
        = slShapes (lookupSL es k))
      ∧ (∀ k, k ≠ it.1 →
          lockOf (missPath bs w es task it).1 k = lockOf es k) := by
  rcases task with _ | t
  · rcases hl : lockOf es it.1 with _ | l
    · rw [missPath_claim bs w hl]
      constructor
      · intro k
        by_cases hk : k = it.1
        · subst hk
          rw [lookupSL_setSL_self (lookupSL_orDefault es it.1) _]
          rcases hq : lookupSL es it.1 with _ | sl
          · simp [slShapes, hq, SecondLevel.default]
          · simp [slShapes, hq]
        · rw [lookupSL_setSL_ne hk, lookupSL_orDefault_ne hk]
      · intro k hk
        rw [lockOf, lockOf, lookupSL_setSL_ne hk, lookupSL_orDefault_ne hk]
    · rw [missPath_noclaim bs w hl]
      exact ⟨fun k => rfl, fun k _ => rfl⟩
  · rw [missPath_some]
    exact ⟨fun k => rfl, fun k _ => rfl⟩

theorem find?_congr_list {α : Type} {p q : α → Bool} :
    ∀ {l : List α}, (∀ x ∈ l, p x = q x) → l.find? p = l.find? q := by
  intro l
  induction l with
  | nil => intro _; rfl
  | cons a as ih =>
    intro h
    rcases hq : q a with _ | _
    · rw [List.find?_cons_of_neg as (by rw [h a (by simp), hq]; simp),
        List.find?_cons_of_neg as (by rw [hq]; simp)]
      exact ih (fun x hx => h x (List.mem_cons_of_mem a hx))
    · rw [List.find?_cons_of_pos as (by rw [h a (by simp), hq]),
        List.find?_cons_of_pos as hq]

/-- The `retain` loop after a task has been selected: remaining items are
still filtered by resolution, but the task and all locks stay untouched. -/
theorem extractGo_of_some (fg : ForkGraphFn) (lr : Slot) (worker : ThreadId) :
    ∀ (sf : List SearchItem) (es : List (Pubkey × SecondLevel))
      (b : LoadedProgramsForTxBatch) (t : Pubkey × Nat),
      (extractGo fg lr worker sf es b (some t)).1
          = sf.filter (fun it => (resolveItem fg lr es b it).isNone)
        ∧ (extractGo fg lr worker sf es b (some t)).2.2.2 = some t
        ∧ (∀ k, lockOf (extractGo fg lr worker sf es b (some t)).2.1 k = lockOf es k) := by
  intro sf
  induction sf with
  | nil => intro es b t; exact ⟨rfl, rfl, fun k => rfl⟩
  | cons item rest ih =>
    intro es b t
    rcases hres : resolveItem fg lr es b item with _ | ⟨es', b'⟩
    · -- miss: `missPath` is a no-op because a task is already selected
      simp only [extractGo, hres, missPath_some]
      rcases hrec : extractGo fg lr worker rest es b (some t) with
        ⟨restOut, esOut, bOut, taskOut⟩
      obtain ⟨ih1, ih2, ih3⟩ := ih es b t
      rw [hrec] at ih1 ih2 ih3
      refine ⟨?_, by simpa using ih2, by simpa using ih3⟩
      rw [List.filter_cons_of_pos (by simp [hres])]
      simpa using ih1
    · -- resolved: item dropped, state advances but resolution is preserved
      simp only [extractGo, hres]
      obtain ⟨hshape, hlock, hbslot, hbenv⟩ := resolveItem_state hres
      obtain ⟨ih1, ih2, ih3⟩ := ih es' b' t
      refine ⟨?_, ih2, fun k => (ih3 k).trans (hlock k)⟩
      rw [List.filter_cons_of_neg (by simp [hres])]
      rw [ih1]
      exact List.filter_congr fun it _ =>
        resolveItem_isNone_eq fg lr hbslot hbenv it (hshape it.1)

/-- The `retain` loop before any task is selected: remaining items are
filtered by resolution; the first unresolved item whose lock is free is
selected and its lock set to `(batch slot, worker)`; all other locks are
untouched. -/
theorem extractGo_of_none (fg : ForkGraphFn) (lr : Slot) (worker : ThreadId) :
    ∀ (sf : List SearchItem) (es : List (Pubkey × SecondLevel))
      (b : LoadedProgramsForTxBatch),
      (extractGo fg lr worker sf es b none).1
          = sf.filter (fun it => (resolveItem fg lr es b it).isNone)
        ∧ (extractGo fg lr worker sf es b none).2.2.2
            = (sf.find? (fun it => (resolveItem fg lr es b it).isNone
                && (lockOf es it.1).isNone)).map (fun it => (it.1, it.2.2))
        ∧ (∀ k, (∀ it, sf.find? (fun it => (resolveItem fg lr es b it).isNone
                && (lockOf es it.1).isNone) = some it → k ≠ it.1) →
            lockOf (extractGo fg lr worker sf es b none).2.1 k = lockOf es k)
        ∧ (∀ it, sf.find? (fun it => (resolveItem fg lr es b it).isNone
                && (lockOf es it.1).isNone) = some it →
            lockOf (extractGo fg lr worker sf es b none).2.1 it.1
              = some (b.slot, worker)) := by
  intro sf
  induction sf with
  | nil =>
    intro es b
    exact ⟨rfl, rfl, fun k _ => rfl, fun it hit => absurd hit (by simp)⟩
  | cons item rest ih =>
    intro es b
    rcases hres : resolveItem fg lr es b item with _ | ⟨es', b'⟩
    · -- miss path
      rcases hl : lockOf es item.1 with _ | l
      · -- free lock: the task is claimed here
        have hq : ((resolveItem fg lr es b item).isNone
            && (lockOf es item.1).isNone) = true := by simp [hres, hl]
        have hfind : (item :: rest).find?
            (fun it => (resolveItem fg lr es b it).isNone
              && (lockOf es it.1).isNone) = some item :=
          List.find?_cons_of_pos rest hq
        simp only [extractGo, hres, missPath_claim b.slot worker hl]
        rcases hrec : extractGo fg lr worker rest
            (setSL (orDefaultSL es item.1) item.1
              { (lookupSL es item.1).getD SecondLevel.default with
                cooperative_loading_lock := some (b.slot, worker) })
            b (some (item.1, item.2.2)) with ⟨restOut, esOut, bOut, taskOut⟩
        obtain ⟨ih1, ih2, ih3⟩ := extractGo_of_some fg lr worker rest
          (setSL (orDefaultSL es item.1) item.1
            { (lookupSL es item.1).getD SecondLevel.default with
              cooperative_loading_lock := some (b.slot, worker) })
          b (item.1, item.2.2)
        simp only [hrec] at ih1 ih2 ih3
        have hstate := @missPath_state b.slot worker es none item
        rw [missPath_claim b.slot worker hl] at hstate
        obtain ⟨hshape, hlockne⟩ := hstate
        have hlockclaim : lockOf (setSL (orDefaultSL es item.1) item.1
            { (lookupSL es item.1).getD SecondLevel.default with
              cooperative_loading_lock := some (b.slot, worker) }) item.1
            = some (b.slot, worker) := by
          rw [lockOf, lookupSL_setSL_self (lookupSL_orDefault es item.1) _]
          rfl
        refine ⟨?_, ?_, ?_, ?_⟩
        · rw [List.filter_cons_of_pos (by simp [hres])]
          exact congrArg (List.cons item) (ih1.trans (List.filter_congr fun it _ =>
            resolveItem_isNone_eq fg lr rfl rfl it (hshape it.1)))
        · rw [hfind]
          simpa using ih2
        · intro k hk
          have hkne : k ≠ item.1 := hk item hfind
          exact (ih3 k).trans (hlockne k hkne)
        · intro it hit
          rw [hfind] at hit
          obtain rfl : item = it := by simpa using hit
          exact (ih3 item.1).trans hlockclaim
      · -- lock held by another worker: keep searching
        have hq : ¬(((resolveItem fg lr es b item).isNone
            && (lockOf es item.1).isNone) = true) := by simp [hl]
        have hfind : (item :: rest).find?
            (fun it => (resolveItem fg lr es b it).isNone
              && (lockOf es it.1).isNone)
            = rest.find? (fun it => (resolveItem fg lr es b it).isNone
              && (lockOf es it.1).isNone) :=
          List.find?_cons_of_neg rest hq
        simp only [extractGo, hres, missPath_noclaim b.slot worker hl]
        rcases hrec : extractGo fg lr worker rest es b none with
          ⟨restOut, esOut, bOut, taskOut⟩
        obtain ⟨ih1, ih2, ih3, ih4⟩ := ih es b
        rw [hrec] at ih1 ih2 ih3 ih4
        refine ⟨?_, ?_, ?_, ?_⟩
        · rw [List.filter_cons_of_pos (by simp [hres])]
          simpa using ih1
        · rw [hfind]
          simpa using ih2
        · intro k hk
          rw [hfind] at hk
          simpa using ih3 k hk
        · intro it hit
          rw [hfind] at hit
          simpa using ih4 it hit
    · -- resolved: dropped from `search_for`, resolution elsewhere preserved
      simp only [extractGo, hres]
      obtain ⟨hshape, hlock, hbslot, hbenv⟩ := resolveItem_state hres
      obtain ⟨ih1, ih2, ih3, ih4⟩ := ih es' b'
      have hcongr : ∀ it ∈ rest,
          ((resolveItem fg lr es' b' it).isNone && (lockOf es' it.1).isNone)
            = ((resolveItem fg lr es b it).isNone && (lockOf es it.1).isNone) := by
        intro it _
        rw [resolveItem_isNone_eq fg lr hbslot hbenv it (hshape it.1), hlock it.1]
      have hfind : rest.find? (fun it => (resolveItem fg lr es' b' it).isNone
            && (lockOf es' it.1).isNone)
          = rest.find? (fun it => (resolveItem fg lr es b it).isNone
            && (lockOf es it.1).isNone) :=
        find?_congr_list hcongr
      have hfind2 : (item :: rest).find? (fun it => (resolveItem fg lr es b it).isNone
            && (lockOf es it.1).isNone)
          = rest.find? (fun it => (resolveItem fg lr es b it).isNone
            && (lockOf es it.1).isNone) :=
        List.find?_cons_of_neg rest (by simp [hres])
      refine ⟨?_, ?_, ?_, ?_⟩
      · rw [List.filter_cons_of_neg (by simp [hres])]
        rw [ih1]
        exact List.filter_congr fun it _ =>
          resolveItem_isNone_eq fg lr hbslot hbenv it (hshape it.1)
      · rw [hfind2, ih2, hfind]
      · intro k hk
        rw [hfind2] at hk
        refine (ih3 k ?_).trans (hlock k)
        intro it hit
        exact hk it (hfind ▸ hit)
      · intro it hit
        rw [hfind2] at hit
        rw [ih4 it (hfind.symm ▸ hit)]
        rw [hbslot]

/-- **C2.** A single call to `extract` assigns at most one cooperative
loading task: among the search items left unresolved by the cache lookup,
exactly the first one whose `cooperative_loading_lock` is empty has that
lock set to `(batch slot, calling worker)` and is returned as the task; the
locks of all other addresses are unchanged; every resolved item is removed
from `search_for` and every unresolved item remains in it. -/
theorem claim_C2 (c : ProgramCache) (sf : List SearchItem)
    (b : LoadedProgramsForTxBatch) (is_first_round : Bool) (worker : ThreadId)
    (fg : ForkGraphFn) (hfg : c.fork_graph = some fg)
    (task : Option (Pubkey × Nat)) (c' : ProgramCache)
    (b' : LoadedProgramsForTxBatch) (sf' : List SearchItem)
    (hex : c.extract sf b is_first_round worker = some (task, c', b', sf')) :
    sf' = sf.filter (fun it =>
        (resolveItem fg c.latest_root_slot c.entries b it).isNone)
      ∧ task = (sf.find? (fun it =>
            (resolveItem fg c.latest_root_slot c.entries b it).isNone
              && (lockOf c.entries it.1).isNone)).map (fun it => (it.1, it.2.2))
      ∧ (∀ k : Pubkey, (∀ (t : Pubkey) (u : Nat), task = some (t, u) → k ≠ t) →
          lockOf c'.entries k = lockOf c.entries k)
      ∧ (∀ (t : Pubkey) (u : Nat), task = some (t, u) →
          lockOf c'.entries t = some (b.slot, worker)) := by
  rcases hrec : extractGo fg c.latest_root_slot worker sf c.entries b none with
    ⟨sfOut, esOut, bOut, taskOut⟩
  obtain ⟨sp1, sp2, sp3, sp4⟩ := extractGo_of_none fg c.latest_root_slot worker
    sf c.entries b
  simp only [hrec] at sp1 sp2 sp3 sp4
  simp only [ProgramCache.extract, hfg, hrec] at hex
  simp only [Option.some.injEq, Prod.mk.injEq] at hex
  obtain ⟨htask, hc', hb', hsf'⟩ := hex
  have hentries : c'.entries = esOut := by rw [← hc']
  refine ⟨?_, ?_, ?_, ?_⟩
  · rw [← hsf', sp1]
  · rw [← htask, sp2]
  · intro k hk
    rw [hentries]
    refine sp3 k ?_
    intro it hit
    refine hk it.1 it.2.2 ?_
    rw [← htask, sp2, hit]
    rfl
  · intro t u htu
    rw [← htask, sp2] at htu
    rcases hfind : sf.find? (fun it =>
        (resolveItem fg c.latest_root_slot c.entries b it).isNone
          && (lockOf c.entries it.1).isNone) with _ | it
    · rw [hfind] at htu; exact absurd htu (by simp)
    · rw [hfind] at htu
      simp only [Option.map_some', Option.some.injEq] at htu
      have hkey : it.1 = t := congrArg Prod.fst htu
      rw [hentries, ← hkey]
      exact sp4 it hfind

/-- Witness for C2 at the concrete scenario: the hit at address 7 is removed
from `search_for`, the miss at address 8 stays, is selected as the task, and
only its lock is claimed. -/
theorem claim_C2_witness :
    [(8, LoadedProgramMatchCriteria.noCriteria, 3)]
        = wSf.filter (fun it =>
            (resolveItem wFork wCacheC2.latest_root_slot wCacheC2.entries
              wBatch20 it).isNone)
      ∧ some (8, 3) = (wSf.find? (fun it =>
            (resolveItem wFork wCacheC2.latest_root_slot wCacheC2.entries
              wBatch20 it).isNone
              && (lockOf wCacheC2.entries it.1).isNone)).map (fun it => (it.1, it.2.2))
      ∧ (∀ k : Pubkey, (∀ (t : Pubkey) (u : Nat),
            (some ((8 : Pubkey), (3 : Nat))) = some (t, u) → k ≠ t) →
          lockOf wCacheC2'.entries k = lockOf wCacheC2.entries k)
      ∧ (∀ (t : Pubkey) (u : Nat), (some ((8 : Pubkey), (3 : Nat))) = some (t, u) →
          lockOf wCacheC2'.entries t = some (wBatch20.slot, 1)) :=
  claim_C2 wCacheC2 wSf wBatch20 true 1 wFork rfl (some (8, 3)) wCacheC2'
    wBatch20' [(8, .noCriteria, 3)] rfl

/-! ## Claim C5: the epoch rollover in `prune` -/

/-- With the recompilation phase ending, the second prune filter is exactly
the environment filter, and its drop count is the number of entries whose
environment does not match. -/
theorem pruneFilter2_true (envs : ProgramRuntimeEnvironments) :
    ∀ l : List LoadedProgram,
      pruneFilter2 true envs l
        = (l.filter (fun e => matches_environment e envs),
           (l.filter (fun e => !matches_environment e envs)).length) := by
  intro l
  induction l with
  | nil => rfl
  | cons e rest ih =>
    simp only [pruneFilter2, ih]
    rcases hm : matches_environment e envs with _ | _
    · rw [List.filter_cons_of_neg (by simp [hm]),
        List.filter_cons_of_pos (by simp [hm])]
      simp
    · rw [List.filter_cons_of_pos (by simp [hm]),
        List.filter_cons_of_neg (by simp [hm])]
      simp

/-- The per-address sweep of `prune`, unrolled: entries are mapped in order
and the statistics accumulate the per-level counts. -/
theorem prune_foldl_spec (fg : ForkGraphFn) (newRoot latestRoot : Slot)
    (recompilationPhaseEnds : Bool) (envs : ProgramRuntimeEnvironments) :
    ∀ (es : List (Pubkey × SecondLevel)) (acc : List (Pubkey × SecondLevel) × Nat × Nat),
      es.foldl (pruneStep fg newRoot latestRoot recompilationPhaseEnds envs) acc
        = (acc.1 ++ es.map (fun p => (p.1,
              { p.2 with slot_versions :=
                  (pruneSecondLevel fg newRoot latestRoot recompilationPhaseEnds envs
                    p.2.slot_versions).1 })),
           acc.2.1 + (es.map (fun p =>
              (pruneSecondLevel fg newRoot latestRoot recompilationPhaseEnds envs
                p.2.slot_versions).2.1)).sum,
           acc.2.2 + (es.map (fun p =>
              (pruneSecondLevel fg newRoot latestRoot recompilationPhaseEnds envs
                p.2.slot_versions).2.2)).sum) := by
  intro es
  induction es with
  | nil => intro acc; simp
  | cons p rest ih =>
    intro acc
    rw [List.foldl_cons, ih]
    simp only [pruneStep, List.map_cons, List.sum_cons]
    rcases hps : pruneSecondLevel fg newRoot latestRoot recompilationPhaseEnds envs
        p.2.slot_versions with ⟨sl', orphan, envN⟩
    simp only [List.append_assoc, List.singleton_append, Prod.mk.injEq]
    refine ⟨by simp, by omega, by omega⟩

/-- **C5, counterexample.** As stated the claim is false when no fork graph
has been set: `prune` then returns immediately, so the environments are not
swapped even though the epoch changed while `upcoming_environments` was
`Some`. -/
theorem claim_C5_counterexample :
    wCacheNoGraph.upcoming_environments = some ⟨300, 400⟩
      ∧ wCacheNoGraph.latest_root_epoch ≠ 2
      ∧ (wCacheNoGraph.prune 10 2).environments ≠ ⟨300, 400⟩
      ∧ (wCacheNoGraph.prune 10 2).upcoming_environments ≠ none := by
  decide

/-- **C5 (amended).** If `prune(new_root_slot, new_root_epoch)` is called
with `new_root_epoch` different from `latest_root_epoch` while
`upcoming_environments` is `Some` — *and a fork graph has been set* — then
on return: `environments` equals the previous `upcoming_environments`,
`upcoming_environments` is `None`, `programs_to_recompile` is empty, every
entry still in the cache whose payload carries an environment has an
environment identical to one of the two members of the new current
environments tuple, and the `prunes_environment` statistic grows by exactly
the number of entries dropped by the environment filter (the orphan-filter
survivors whose environment does not match). -/
theorem claim_C5 (c : ProgramCache) (new_root_slot : Slot) (new_root_epoch : Epoch)
    (fg : ForkGraphFn) (hfg : c.fork_graph = some fg)
    (up : ProgramRuntimeEnvironments) (hup : c.upcoming_environments = some up)
    (hep : c.latest_root_epoch ≠ new_root_epoch) :
    (c.prune new_root_slot new_root_epoch).environments = up
      ∧ (c.prune new_root_slot new_root_epoch).upcoming_environments = none
      ∧ (c.prune new_root_slot new_root_epoch).programs_to_recompile = []
      ∧ (∀ p ∈ (c.prune new_root_slot new_root_epoch).entries,
          ∀ e ∈ p.2.slot_versions, ∀ env, e.program.get_environment = some env →
            env = up.program_runtime_v1 ∨ env = up.program_runtime_v2)
      ∧ (c.prune new_root_slot new_root_epoch).stats.prunes_environment
          = (c.stats.prunes_environment
              + (c.entries.map (fun p =>
                  ((pruneFilter1 fg new_root_slot c.latest_root_slot
                      p.2.slot_versions.reverse false none).1.filter
                    (fun e => !matches_environment e up)).length)).sum) % U64 := by
  have hstep : ∀ p : Pubkey × SecondLevel,
      pruneSecondLevel fg new_root_slot c.latest_root_slot true up
          p.2.slot_versions
        = (((pruneFilter1 fg new_root_slot c.latest_root_slot
              p.2.slot_versions.reverse false none).1.filter
            (fun e => matches_environment e up)).reverse,
           (pruneFilter1 fg new_root_slot c.latest_root_slot
              p.2.slot_versions.reverse false none).2,
           ((pruneFilter1 fg new_root_slot c.latest_root_slot
              p.2.slot_versions.reverse false none).1.filter
            (fun e => !matches_environment e up)).length) := by
    intro p
    unfold pruneSecondLevel
    rcases hf1 : pruneFilter1 fg new_root_slot c.latest_root_slot
        p.2.slot_versions.reverse false none with ⟨kept1, orphan⟩
    simp [pruneFilter2_true]
  simp only [ProgramCache.prune, hfg, if_pos hep, hup]
  rw [prune_foldl_spec]
  simp only [List.nil_append, Nat.zero_add]
  refine ⟨?_, ?_, ?_, ?_, ?_⟩
  · trivial
  · trivial
  · trivial
  · intro p hp e he env henv
    have hp' : p ∈ (removeProgramsWithNoEntries _ _).1 := hp
    have hmem : p ∈ c.entries.map fun q => (q.1,
        { q.2 with slot_versions := (pruneSecondLevel fg new_root_slot
            c.latest_root_slot true up q.2.slot_versions).1 }) := by
      have := List.mem_filter.1 (by
        simpa only [removeProgramsWithNoEntries] using hp')
      exact this.1
    obtain ⟨q, hq, hpq⟩ := List.mem_map.1 hmem
    have hsl : p.2.slot_versions
        = (pruneSecondLevel fg new_root_slot c.latest_root_slot true up
            q.2.slot_versions).1 := by
      rw [← hpq]
    rw [hsl, hstep q] at he
    have he' := List.mem_filter.1 (List.mem_reverse.1 he)
    have hmatch : matches_environment e up = true := he'.2
    unfold matches_environment at hmatch
    rw [henv] at hmatch
    rcases Bool.or_eq_true_iff.1 hmatch with h | h
    · exact Or.inl (by simpa using h)
    · exact Or.inr (by simpa using h)
  · have hst : ∀ (es : List (Pubkey × SecondLevel)) (st : Stats),
        (removeProgramsWithNoEntries es st).2.prunes_environment
          = st.prunes_environment := by
      intro es st
      simp only [removeProgramsWithNoEntries]
      split <;> rfl
    rw [hst]
    simp only [hstep]

/-- Witness for (amended) C5: the entry under the old environment 100 is
dropped, the upcoming pair `(300, 400)` becomes current, and the statistic
counts the one dropped entry. -/
theorem claim_C5_witness :
    (wCacheEpoch.prune 50 2).environments = ⟨300, 400⟩
      ∧ (wCacheEpoch.prune 50 2).upcoming_environments = none
      ∧ (wCacheEpoch.prune 50 2).programs_to_recompile = []
      ∧ (∀ p ∈ (wCacheEpoch.prune 50 2).entries,
          ∀ e ∈ p.2.slot_versions, ∀ env, e.program.get_environment = some env →
            env = (300 : EnvId) ∨ env = (400 : EnvId))
      ∧ (wCacheEpoch.prune 50 2).stats.prunes_environment
          = (wCacheEpoch.stats.prunes_environment
              + (wCacheEpoch.entries.map (fun p =>
                  ((pruneFilter1 wFork 50 wCacheEpoch.latest_root_slot
                      p.2.slot_versions.reverse false none).1.filter
                    (fun e => !matches_environment e ⟨300, 400⟩)).length)).sum) % U64 :=
  claim_C5 wCacheEpoch 50 2 wFork rfl ⟨300, 400⟩ rfl (by decide)

/-! ## Claim C9: 2-random eviction -/

/-- `swap_remove` removes exactly one element, the one at the sampled
index. -/
theorem swapRemove_spec {l : List (Pubkey × LoadedProgram)} {i : Nat}
    {x : Pubkey × LoadedProgram} {r : List (Pubkey × LoadedProgram)}
    (h : swapRemove l i = some (x, r)) :
    l[i]? = some x ∧ r.length + 1 = l.length := by
  unfold swapRemove at h
  rcases hx : l[i]? with _ | y
  · rw [hx] at h; exact absurd h (by simp)
  · rw [hx] at h
    rcases hlast : l.getLast? with _ | last
    · rw [hlast] at h; exact absurd h (by simp)
    · rw [hlast] at h
      simp only [Option.some.injEq, Prod.mk.injEq] at h
      obtain ⟨rfl, hr⟩ := h
      have hlen : 0 < l.length := by
        by_contra hc
        rw [List.getElem?_eq_none (by omega)] at hx
        exact absurd hx (by simp)
      refine ⟨rfl, ?_⟩
      rw [← hr, List.length_dropLast, List.length_set]
      omega

/-- **C9.** In every iteration of `evict_using_2s_random_selection`, given
the two sampled candidate indices, the candidate with the strictly lower
`decayed_usage_counter` is the one swap-removed from the candidate list and
unloaded; on a tie the second sampled candidate is evicted; the unload
replaces the matching entry of the second level by its `to_unloaded` clone,
which preserves the usage counters; and the loop runs exactly
`candidates.len − shrink_to percent of MAX_LOADED_ENTRY_COUNT` iterations
(saturating at zero), each removing one candidate. -/
theorem claim_C9 (c : ProgramCache) (candidates : List (Pubkey × LoadedProgram))
    (now : Slot) (i1 i2 : Nat) (e1 e2 : Pubkey × LoadedProgram)
    (r1 r2 : List (Pubkey × LoadedProgram))
    (h1 : swapRemove candidates i1 = some (e1, r1))
    (h2 : swapRemove candidates i2 = some (e2, r2)) :
    (e1.2.decayed_usage_counter now < e2.2.decayed_usage_counter now →
        evictStep c candidates now i1 i2
          = (c.unload_program_entry e1.1 e1.2).map (fun c' => (c', r1)))
      ∧ (¬e1.2.decayed_usage_counter now < e2.2.decayed_usage_counter now →
          evictStep c candidates now i1 i2
            = (c.unload_program_entry e2.1 e2.2).map (fun c' => (c', r2)))
      ∧ (∀ (pk : Pubkey) (e : LoadedProgram) (c' : ProgramCache),
          c.unload_program_entry pk e = some c' →
          ∃ sl j cand, lookupSL c.entries pk = some sl
            ∧ findIdxEntry (fun x => x.partialEq e) sl.slot_versions = some (j, cand)
            ∧ ((cand.to_unloaded = none ∧ c' = c)
              ∨ (∃ u, cand.to_unloaded = some u
                  ∧ c'.entries = setSL c.entries pk
                      { sl with slot_versions := sl.slot_versions.set j u })))
      ∧ (∀ e u : LoadedProgram, e.to_unloaded = some u →
          u.tx_usage_counter = e.tx_usage_counter
            ∧ u.ix_usage_counter = e.ix_usage_counter
            ∧ u.latest_access_slot = e.latest_access_slot)
      ∧ (∀ (k n : Nat) (st out : ProgramCache × List (Pubkey × LoadedProgram))
          (rand : Nat → Nat × Nat),
          evictLoop now rand k n st = some out → out.2.length + n = st.2.length)
      ∧ (∀ (shrink_to : Nat) (rand : Nat → Nat × Nat),
          c.evict_using_2s_random_selection shrink_to now rand
            = (evictLoop now rand 0
                ((c.get_flattened_entries true true).length
                  - percentageApplyTo shrink_to MAX_LOADED_ENTRY_COUNT)
                (c, c.get_flattened_entries true true)).map (·.1)) := by
  obtain ⟨hg1, _⟩ := swapRemove_spec h1
  obtain ⟨hg2, _⟩ := swapRemove_spec h2
  refine ⟨?_, ?_, ?_, ?_, ?_, fun shrink_to rand => rfl⟩
  · intro hlt
    unfold evictStep random_index_and_usage_counter
    rw [hg1, hg2]
    simp only [Option.map_some']
    rw [if_pos hlt, h1]
    rfl
  · intro hge
    unfold evictStep random_index_and_usage_counter
    rw [hg1, hg2]
    simp only [Option.map_some']
    rw [if_neg hge, h2]
    rfl
  · intro pk e c' h
    unfold ProgramCache.unload_program_entry at h
    rcases hsl : lookupSL c.entries pk with _ | sl
    · rw [hsl] at h; exact absurd h (by simp)
    · simp only [hsl] at h
      rcases hfind : findIdxEntry (fun x => x.partialEq e) sl.slot_versions with _ | jc
      · simp only [hfind] at h; exact absurd h (by simp)
      · simp only [hfind] at h
        rcases jc with ⟨j, cand⟩
        refine ⟨sl, j, cand, rfl, hfind, ?_⟩
        rcases hu : cand.to_unloaded with _ | u
        · simp only [hu] at h
          exact Or.inl ⟨rfl, (Option.some.inj h).symm⟩
        · simp only [hu] at h
          refine Or.inr ⟨u, rfl, ?_⟩
          rw [← Option.some.inj h]
  · intro e u h
    unfold LoadedProgram.to_unloaded at h
    rcases hp : e.program with env | _ | _ | env | env | env | env | _ <;>
      simp only [hp, LoadedProgramType.get_environment, Option.some.injEq] at h <;>
      first
        | exact absurd h (by simp)
        | (subst h; exact ⟨rfl, rfl, rfl⟩)
  · intro k n
    induction n generalizing k with
    | zero =>
      intro st out rand h
      obtain rfl : st = out := Option.some.inj h
      rfl
    | succ m ih =>
      intro st out rand h
      simp only [evictLoop] at h
      rcases hstep : evictStep st.1 st.2 now (rand k).1 (rand k).2 with _ | st'
      · rw [hstep] at h; exact absurd h (by simp)
      · rw [hstep] at h
        simp only [Option.some_bind] at h
        have hlen' := ih (k + 1) st' out rand h
        -- one candidate was removed by the step
        have hone : st'.2.length + 1 = st.2.length := by
          unfold evictStep at hstep
          rcases hr1 : random_index_and_usage_counter st.2 now (rand k).1 with _ | iu1
          · rw [hr1] at hstep; exact absurd hstep (by simp)
          · rcases hr2 : random_index_and_usage_counter st.2 now (rand k).2 with _ | iu2
            · rw [hr1, hr2] at hstep; exact absurd hstep (by simp)
            · rw [hr1, hr2] at hstep
              rcases iu1 with ⟨idx1, u1⟩
              rcases iu2 with ⟨idx2, u2⟩
              simp only [] at hstep
              by_cases hcmp : u1 < u2
              · rw [if_pos hcmp] at hstep
                rcases hsw : swapRemove st.2 idx1 with _ | q
                · rw [hsw] at hstep; exact absurd hstep (by simp)
                · rw [hsw] at hstep
                  simp only [Option.some_bind] at hstep
                  rcases hun : st.1.unload_program_entry q.1.1 q.1.2 with _ | c₁
                  · rw [hun] at hstep; exact absurd hstep (by simp)
                  · rw [hun] at hstep
                    simp only [Option.map_some', Option.some.injEq] at hstep
                    have : st'.2 = q.2 := by rw [← hstep]
                    rw [this]
                    exact (swapRemove_spec hsw).2
              · rw [if_neg hcmp] at hstep
                rcases hsw : swapRemove st.2 idx2 with _ | q
                · rw [hsw] at hstep; exact absurd hstep (by simp)
                · rw [hsw] at hstep
                  simp only [Option.some_bind] at hstep
                  rcases hun : st.1.unload_program_entry q.1.1 q.1.2 with _ | c₁
                  · rw [hun] at hstep; exact absurd hstep (by simp)
                  · rw [hun] at hstep
                    simp only [Option.map_some', Option.some.injEq] at hstep
                    have : st'.2 = q.2 := by rw [← hstep]
                    rw [this]
                    exact (swapRemove_spec hsw).2
        omega

/-- Witness for C9 at two concrete sampled candidates with different decayed
counters. -/
theorem claim_C9_witness :
    (swapRemove wCands 0 = some ((1, wEntryA), [(2, wEntryB)])
        ∧ swapRemove wCands 1 = some ((2, wEntryB), [(1, wEntryA)]))
      ∧ ((wEntryA.decayed_usage_counter 0 < wEntryB.decayed_usage_counter 0 →
            evictStep wCacheC2 wCands 0 0 1
              = (wCacheC2.unload_program_entry 1 wEntryA).map
                  (fun c' => (c', [(2, wEntryB)])))
        ∧ (¬wEntryA.decayed_usage_counter 0 < wEntryB.decayed_usage_counter 0 →
            evictStep wCacheC2 wCands 0 0 1
              = (wCacheC2.unload_program_entry 2 wEntryB).map
                  (fun c' => (c', [(1, wEntryA)])))
        ∧ (∀ (pk : Pubkey) (e : LoadedProgram) (c' : ProgramCache),
            wCacheC2.unload_program_entry pk e = some c' →
            ∃ sl j cand, lookupSL wCacheC2.entries pk = some sl
              ∧ findIdxEntry (fun x => x.partialEq e) sl.slot_versions = some (j, cand)
              ∧ ((cand.to_unloaded = none ∧ c' = wCacheC2)
                ∨ (∃ u, cand.to_unloaded = some u
                    ∧ c'.entries = setSL wCacheC2.entries pk
                        { sl with slot_versions := sl.slot_versions.set j u })))
        ∧ (∀ e u : LoadedProgram, e.to_unloaded = some u →
            u.tx_usage_counter = e.tx_usage_counter
              ∧ u.ix_usage_counter = e.ix_usage_counter
              ∧ u.latest_access_slot = e.latest_access_slot)
        ∧ (∀ (k n : Nat) (st out : ProgramCache × List (Pubkey × LoadedProgram))
            (rand : Nat → Nat × Nat),
            evictLoop 0 rand k n st = some out → out.2.length + n = st.2.length)
        ∧ (∀ (shrink_to : Nat) (rand : Nat → Nat × Nat),
            wCacheC2.evict_using_2s_random_selection shrink_to 0 rand
              = (evictLoop 0 rand 0
                  ((wCacheC2.get_flattened_entries true true).length
                    - percentageApplyTo shrink_to MAX_LOADED_ENTRY_COUNT)
                  (wCacheC2, wCacheC2.get_flattened_entries true true)).map (·.1))) :=
  ⟨⟨by decide, by decide⟩,
    claim_C9 wCacheC2 wCands 0 0 1 (1, wEntryA) (2, wEntryB) [(2, wEntryB)]
      [(1, wEntryA)] (by decide) (by decide)⟩

/-! ## Claim C4: the sortedness invariant P1 -/

theorem sortedEntries_lookup {es : List (Pubkey × SecondLevel)} {k : Pubkey}
    {v : SecondLevel} (hs : SortedEntries es) (h : lookupSL es k = some v) :
    SortedByKey v.slot_versions := by
  induction es with
  | nil => exact absurd h (by simp [lookupSL])
  | cons p rest ih =>
    simp only [lookupSL] at h
    rcases hb : (p.1 == k) with _ | _
    · rw [hb] at h
      simp only [Bool.false_eq_true, if_false] at h
      exact ih (fun q hq => hs q (List.mem_cons_of_mem p hq)) h
    · rw [hb] at h
      simp only [if_true, Option.some.injEq] at h
      exact h ▸ hs p (by simp)

theorem mem_setSL {es : List (Pubkey × SecondLevel)} {k : Pubkey}
    {v : SecondLevel} {q : Pubkey × SecondLevel} (h : q ∈ setSL es k v) :
    q.2 = v ∨ q ∈ es := by
  induction es with
  | nil => exact absurd h (by simp [setSL])
  | cons p rest ih =>
    simp only [setSL] at h
    rcases hb : (p.1 == k) with _ | _
    · rw [hb] at h
      simp only [Bool.false_eq_true, if_false, List.mem_cons] at h
      rcases h with h | h
      · exact Or.inr (h ▸ by simp)
      · rcases ih h with h' | h'
        · exact Or.inl h'
        · exact Or.inr (List.mem_cons_of_mem p h')
    · rw [hb] at h
      simp only [if_true, List.mem_cons] at h
      rcases h with h | h
      · exact Or.inl (congrArg Prod.snd h)
      · rcases ih h with h' | h'
        · exact Or.inl h'
        · exact Or.inr (List.mem_cons_of_mem p h')

theorem sortedEntries_setSL {es : List (Pubkey × SecondLevel)} {k : Pubkey}
    {v : SecondLevel} (hs : SortedEntries es) (hv : SortedByKey v.slot_versions) :
    SortedEntries (setSL es k v) := by
  intro q hq
  rcases mem_setSL hq with h | h
  · exact h ▸ hv
  · exact hs q h

theorem sortedEntries_orDefault {es : List (Pubkey × SecondLevel)} {k : Pubkey}
    (hs : SortedEntries es) : SortedEntries (orDefaultSL es k) := by
  unfold orDefaultSL
  split
  · exact hs
  · intro q hq
    rcases List.mem_append.1 hq with h | h
    · exact hs q h
    · have : q = (k, SecondLevel.default) := by simpa using h
      rw [this]
      exact List.Pairwise.nil

/-- `assign_program` preserves the sortedness invariant. -/
theorem assign_program_sorted {c : ProgramCache} {key : Pubkey}
    {entry : LoadedProgram} (hs : SortedEntries c.entries) :
    SortedEntries (c.assign_program key entry).2.entries := by
  simp only [ProgramCache.assign_program]
  have hes₁ : SortedEntries (orDefaultSL c.entries key) := sortedEntries_orDefault hs
  have hL : SortedByKey ((lookupSL (orDefaultSL c.entries key) key).getD
      SecondLevel.default).slot_versions := by
    rw [lookupSL_orDefault]
    rcases hq : lookupSL c.entries key with _ | v
    · exact List.Pairwise.nil
    · exact sortedEntries_lookup hs hq
  rw [lookupSL_orDefault]
  simp only [Option.getD_some]
  rw [lookupSL_orDefault] at hL
  simp only [Option.getD_some] at hL
  rcases hbs : binarySearch ((lookupSL c.entries key).getD
      SecondLevel.default).slot_versions (keyOf entry) with ⟨i, x⟩ | i
  · obtain ⟨hx, hk⟩ := binarySearch_inl hbs
    rcases hvv : validTransition x.program entry.program with _ | _
    · simp only [hvv, Bool.false_eq_true, if_false]
      exact hes₁
    · simp only [hvv, if_true]
      refine sortedEntries_setSL hes₁ ?_
      exact sorted_set_of_keyEq hL hx (by rw [hk]; rfl)
  · obtain ⟨hle, hlo, hhi⟩ := binarySearch_inr hL hbs
    refine sortedEntries_setSL hes₁ ?_
    exact sorted_insertIdx hL hle (fun j hj hjl => hlo j hj hjl)
      (fun j hj hjl => hhi j hj hjl)

/-- `resolveItem` preserves the sortedness invariant. -/
theorem resolveItem_sorted {fg : ForkGraphFn} {lr : Slot}
    {es : List (Pubkey × SecondLevel)} {b : LoadedProgramsForTxBatch}
    {it : SearchItem} {es' : List (Pubkey × SecondLevel)}
    {b' : LoadedProgramsForTxBatch} (hs : SortedEntries es)
    (h : resolveItem fg lr es b it = some (es', b')) : SortedEntries es' := by
  unfold resolveItem at h
  rcases h1 : lookupSL es it.1 with _ | sl
  · rw [h1] at h; exact absurd h (by simp)
  · simp only [h1] at h
    rcases h2 : findHit fg lr b.slot b.environments it.2.1
        sl.slot_versions.enum.reverse with _ | hit
    · simp only [h2] at h; exact absurd h (by simp)
    · simp only [h2] at h
      rcases hit with ⟨i, e⟩ | dep
      · simp only [Option.some.injEq, Prod.mk.injEq] at h
        obtain ⟨hes, _⟩ := h
        have hget : sl.slot_versions[i]? = some e :=
          List.mk_mem_enum_iff_getElem?.1
            (List.mem_reverse.1 (findHit_real_mem h2))
        rw [← hes]
        exact sortedEntries_setSL hs
          (sorted_set_of_keyEq (sortedEntries_lookup hs h1) hget rfl)
      · simp only [Option.some.injEq, Prod.mk.injEq] at h
        exact h.1 ▸ hs

/-- `missPath` preserves the sortedness invariant. -/
theorem missPath_sorted {bs : Slot} {w : ThreadId}
    {es : List (Pubkey × SecondLevel)} {task : Option (Pubkey × Nat)}
    {it : SearchItem} (hs : SortedEntries es) :
    SortedEntries (missPath bs w es task it).1 := by
  rcases task with _ | t
  · rcases hl : lockOf es it.1 with _ | l
    · rw [missPath_claim bs w hl]
      refine sortedEntries_setSL (sortedEntries_orDefault hs) ?_
      rcases hq : lookupSL es it.1 with _ | sl
      · simp only [hq, Option.getD_none]
        exact List.Pairwise.nil
      · simp only [hq, Option.getD_some]
        exact sortedEntries_lookup hs hq
    · rw [missPath_noclaim bs w hl]
      exact hs
  · rw [missPath_some]
    exact hs

/-- The `retain` loop of `extract` preserves the sortedness invariant. -/
theorem extractGo_sorted (fg : ForkGraphFn) (lr : Slot) (worker : ThreadId) :
    ∀ (sf : List SearchItem) (es : List (Pubkey × SecondLevel))
      (b : LoadedProgramsForTxBatch) (task : Option (Pubkey × Nat)),
      SortedEntries es → SortedEntries (extractGo fg lr worker sf es b task).2.1 := by
  intro sf
  induction sf with
  | nil => intro es b task hs; exact hs
  | cons item rest ih =>
    intro es b task hs
    rcases hres : resolveItem fg lr es b item with _ | ⟨es', b'⟩
    · simp only [extractGo, hres]
      rcases hmp : missPath b.slot worker es task item with ⟨es₁, task₁⟩
      have hs₁ : SortedEntries es₁ := by
        have hms : SortedEntries (missPath b.slot worker es task item).1 :=
          missPath_sorted hs
        rw [hmp] at hms
        exact hms
      rcases hrec : extractGo fg lr worker rest es₁ b task₁ with
        ⟨restOut, esOut, bOut, taskOut⟩
      have := ih es₁ b task₁ hs₁
      rw [hrec] at this
      exact this
    · simp only [extractGo, hres]
      exact ih es' b' task (resolveItem_sorted hs hres)

theorem pruneFilter1_sublist (fg : ForkGraphFn) (newRoot latestRoot : Slot) :
    ∀ (l : List LoadedProgram) (found : Bool) (fenv : Option EnvId),
      (pruneFilter1 fg newRoot latestRoot l found fenv).1.Sublist l := by
  intro l
  induction l with
  | nil => intro found fenv; exact List.Sublist.refl _
  | cons e rest ih =>
    intro found fenv
    show (if e.deployment_slot ≥ newRoot then
        if fg e.deployment_slot newRoot = .Equal ∨
            fg e.deployment_slot newRoot = .Descendant then
          match pruneFilter1 fg newRoot latestRoot rest found fenv with
          | (l, n) => (e :: l, n)
        else
          pruneFilter1 fg newRoot latestRoot rest found fenv
      else if fg e.deployment_slot newRoot = .Ancestor ∨
          e.deployment_slot ≤ latestRoot then
        if !found then
          match pruneFilter1 fg newRoot latestRoot rest true
              e.program.get_environment with
          | (l, n) => (e :: l, n)
        else
          match e.program.get_environment, fenv with
          | some entry_env, some env =>
            if entry_env ≠ env then
              match pruneFilter1 fg newRoot latestRoot rest found fenv with
              | (l, n) => (e :: l, n)
            else
              match pruneFilter1 fg newRoot latestRoot rest found fenv with
              | (l, n) => (l, n + 1)
          | _, _ =>
            match pruneFilter1 fg newRoot latestRoot rest found fenv with
            | (l, n) => (l, n + 1)
      else
        match pruneFilter1 fg newRoot latestRoot rest found fenv with
        | (l, n) => (l, n + 1)).1.Sublist (e :: rest)
    repeat' split
    all_goals
      first
      | (rename_i l' n' heq
         have hsub : ((l', n')).1.Sublist rest := by
           rw [← heq]; exact ih _ _
         first | exact hsub.cons₂ e | exact hsub.cons e)
      | exact (ih _ _).cons e

theorem pruneFilter2_sublist (recompilationPhaseEnds : Bool)
    (envs : ProgramRuntimeEnvironments) :
    ∀ l : List LoadedProgram,
      (pruneFilter2 recompilationPhaseEnds envs l).1.Sublist l := by
  intro l
  induction l with
  | nil => exact List.Sublist.refl _
  | cons e rest ih =>
    rcases hrec : pruneFilter2 recompilationPhaseEnds envs rest with ⟨l', n'⟩
    have hsub : ((l', n')).1.Sublist rest := by rw [← hrec]; exact ih
    simp only [pruneFilter2, hrec]
    split
    · exact hsub.cons e
    · exact hsub.cons₂ e

/-- Pruning one second level preserves sortedness (its output is a
subsequence of the input). -/
theorem pruneSecondLevel_sorted (fg : ForkGraphFn) (newRoot latestRoot : Slot)
    (recompilationPhaseEnds : Bool) (envs : ProgramRuntimeEnvironments)
    {sl : List LoadedProgram} (hs : SortedByKey sl) :
    SortedByKey (pruneSecondLevel fg newRoot latestRoot recompilationPhaseEnds
      envs sl).1 := by
  unfold pruneSecondLevel
  rcases hf1 : pruneFilter1 fg newRoot latestRoot sl.reverse false none with ⟨k1, n1⟩
  rcases hf2 : pruneFilter2 recompilationPhaseEnds envs k1 with ⟨k2, n2⟩
  have hrev : List.Pairwise (fun a b => keyLt (keyOf b) (keyOf a)) sl.reverse :=
    List.pairwise_reverse.2 hs
  have hsub1 : k1.Sublist sl.reverse := by
    have := pruneFilter1_sublist fg newRoot latestRoot sl.reverse false none
    rw [hf1] at this
    exact this
  have hsub2 : k2.Sublist k1 := by
    have := pruneFilter2_sublist recompilationPhaseEnds envs k1
    rw [hf2] at this
    exact this
  have hk2 : List.Pairwise (fun a b => keyLt (keyOf b) (keyOf a)) k2 :=
    List.Pairwise.sublist hsub2 (List.Pairwise.sublist hsub1 hrev)
  simp only [hf2]
  exact List.pairwise_reverse.mpr hk2

/-- The sweep-then-cleanup composition of `prune` preserves the invariant. -/
theorem prune_sweep_sorted (fg : ForkGraphFn) (newRoot latestRoot : Slot)
    (recompilationPhaseEnds : Bool) (envs : ProgramRuntimeEnvironments)
    {es : List (Pubkey × SecondLevel)} (hs : SortedEntries es) (st : Stats) :
    SortedEntries (removeProgramsWithNoEntries
      (es.foldl (pruneStep fg newRoot latestRoot recompilationPhaseEnds envs)
        ([], 0, 0)).1 st).1 := by
  intro q hq
  have hq1 : q ∈ (es.foldl (pruneStep fg newRoot latestRoot
      recompilationPhaseEnds envs) ([], 0, 0)).1 := by
    have := List.mem_filter.1 (by simpa only [removeProgramsWithNoEntries] using hq)
    exact this.1
  rw [prune_foldl_spec] at hq1
  simp only [List.nil_append] at hq1
  obtain ⟨p, hp, hpq⟩ := List.mem_map.1 hq1
  have : q.2.slot_versions = (pruneSecondLevel fg newRoot latestRoot
      recompilationPhaseEnds envs p.2.slot_versions).1 := by rw [← hpq]
  rw [this]
  exact pruneSecondLevel_sorted fg newRoot latestRoot recompilationPhaseEnds envs
    (hs p hp)

/-- `prune` preserves the sortedness invariant. -/
theorem prune_sorted {c : ProgramCache} {newRoot : Slot} {newEpoch : Epoch}
    (hs : SortedEntries c.entries) :
    SortedEntries (c.prune newRoot newEpoch).entries := by
  unfold ProgramCache.prune
  rcases hfg : c.fork_graph with _ | fg
  · exact hs
  · by_cases hep : c.latest_root_epoch ≠ newEpoch
    · rcases hup : c.upcoming_environments with _ | up
      · simp only [if_pos hep, hup]
        exact prune_sweep_sorted fg newRoot c.latest_root_slot false c.environments hs _
      · simp only [if_pos hep, hup]
        exact prune_sweep_sorted fg newRoot c.latest_root_slot true up hs _
    · simp only [if_neg hep]
      exact prune_sweep_sorted fg newRoot c.latest_root_slot false c.environments hs _

/-- `prune_by_deployment_slot` preserves the sortedness invariant. -/
theorem prune_by_deployment_slot_sorted {c : ProgramCache} {slot : Slot}
    (hs : SortedEntries c.entries) :
    SortedEntries (c.prune_by_deployment_slot slot).entries := by
  intro q hq
  simp only [ProgramCache.prune_by_deployment_slot] at hq
  have hq1 := (List.mem_filter.1 (by
    simpa only [removeProgramsWithNoEntries] using hq)).1
  obtain ⟨p, hp, hpq⟩ := List.mem_map.1 hq1
  have : q.2.slot_versions = p.2.slot_versions.filter
      (fun entry => entry.deployment_slot ≠ slot) := by rw [← hpq]
  rw [this]
  exact List.Pairwise.sublist (List.filter_sublist _) (hs p hp)

theorem findIdxEntry_getElem {p : LoadedProgram → Bool} :
    ∀ {l : List LoadedProgram} {j : Nat} {cand : LoadedProgram},
      findIdxEntry p l = some (j, cand) → l[j]? = some cand := by
  intro l
  induction l with
  | nil => intro j cand h; exact absurd h (by simp [findIdxEntry])
  | cons x xs ih =>
    intro j cand h
    simp only [findIdxEntry] at h
    split at h
    · simp only [Option.some.injEq, Prod.mk.injEq] at h
      obtain ⟨rfl, rfl⟩ := h
      simp
    · rcases hr : findIdxEntry p xs with _ | q
      · rw [hr] at h; exact absurd h (by simp)
      · rw [hr] at h
        simp only [Option.map_some', Option.some.injEq, Prod.mk.injEq] at h
        obtain ⟨hj, rfl⟩ := h
        rcases q with ⟨j', cand⟩
        simp only at hj
        subst hj
        simpa using ih hr

/-- `to_unloaded` keeps the composite key. -/
theorem to_unloaded_key {e u : LoadedProgram} (h : e.to_unloaded = some u) :
    keyOf u = keyOf e := by
  unfold LoadedProgram.to_unloaded at h
  rcases hp : e.program with env | _ | _ | env | env | env | env | _ <;>
    simp only [hp, LoadedProgramType.get_environment, Option.some.injEq] at h <;>
    first
      | exact absurd h (by simp)
      | (subst h; rfl)

/-- `unload_program_entry` preserves the sortedness invariant. -/
theorem unload_program_entry_sorted {c : ProgramCache} {pk : Pubkey}
    {e : LoadedProgram} {c' : ProgramCache} (hs : SortedEntries c.entries)
    (h : c.unload_program_entry pk e = some c') : SortedEntries c'.entries := by
  unfold ProgramCache.unload_program_entry at h
  rcases hsl : lookupSL c.entries pk with _ | sl
  · rw [hsl] at h; exact absurd h (by simp)
  · simp only [hsl] at h
    rcases hfind : findIdxEntry (fun x => x.partialEq e) sl.slot_versions with _ | jc
    · simp only [hfind] at h; exact absurd h (by simp)
    · simp only [hfind] at h
      rcases jc with ⟨j, cand⟩
      rcases hu : cand.to_unloaded with _ | u
      · simp only [hu] at h
        rw [← Option.some.inj h]
        exact hs
      · simp only [hu] at h
        rw [← Option.some.inj h]
        refine sortedEntries_setSL hs ?_
        exact sorted_set_of_keyEq (sortedEntries_lookup hs hsl)
          (findIdxEntry_getElem hfind) (to_unloaded_key hu)

/-- The 2-random eviction loop preserves the sortedness invariant. -/
theorem evictLoop_sorted (now : Slot) (rand : Nat → Nat × Nat) :
    ∀ (n k : Nat) (st out : ProgramCache × List (Pubkey × LoadedProgram)),
      SortedEntries st.1.entries → evictLoop now rand k n st = some out →
      SortedEntries out.1.entries := by
  intro n
  induction n with
  | zero =>
    intro k st out hs h
    obtain rfl : st = out := Option.some.inj h
    exact hs
  | succ m ih =>
    intro k st out hs h
    simp only [evictLoop] at h
    rcases hstep : evictStep st.1 st.2 now (rand k).1 (rand k).2 with _ | st'
    · rw [hstep] at h; exact absurd h (by simp)
    · rw [hstep] at h
      simp only [Option.some_bind] at h
      refine ih (k + 1) st' out ?_ h
      unfold evictStep at hstep
      rcases hr1 : random_index_and_usage_counter st.2 now (rand k).1 with _ | iu1
      · rw [hr1] at hstep; exact absurd hstep (by simp)
      · rcases hr2 : random_index_and_usage_counter st.2 now (rand k).2 with _ | iu2
        · rw [hr1, hr2] at hstep; exact absurd hstep (by simp)
        · rw [hr1, hr2] at hstep
          rcases iu1 with ⟨idx1, u1⟩
          rcases iu2 with ⟨idx2, u2⟩
          simp only [] at hstep
          rcases hsw : (if u1 < u2 then swapRemove st.2 idx1 else
              swapRemove st.2 idx2) with _ | q
          · rw [hsw] at hstep; exact absurd hstep (by simp)
          · rw [hsw] at hstep
            simp only [Option.some_bind] at hstep
            rcases hun : st.1.unload_program_entry q.1.1 q.1.2 with _ | c₁
            · rw [hun] at hstep; exact absurd hstep (by simp)
            · rw [hun] at hstep
              simp only [Option.map_some', Option.some.injEq] at hstep
              have : st'.1 = c₁ := by rw [← hstep]
              rw [this]
              exact unload_program_entry_sorted hs hun

/-- `evict_using_2s_random_selection` preserves the sortedness invariant. -/
theorem evict_sorted {c : ProgramCache} {shrink_to : Nat} {now : Slot}
    {rand : Nat → Nat × Nat} {c' : ProgramCache} (hs : SortedEntries c.entries)
    (h : c.evict_using_2s_random_selection shrink_to now rand = some c') :
    SortedEntries c'.entries := by
  simp only [ProgramCache.evict_using_2s_random_selection] at h
  rcases hloop : evictLoop now rand 0
      ((c.get_flattened_entries true true).length
        - percentageApplyTo shrink_to MAX_LOADED_ENTRY_COUNT)
      (c, c.get_flattened_entries true true) with _ | out
  · rw [hloop] at h; exact absurd h (by simp)
  · rw [hloop] at h
    simp only [Option.map_some', Option.some.injEq] at h
    rw [← h]
    exact evictLoop_sorted now rand _ 0 _ out hs hloop

/-- Sequential unloading of a candidate list preserves the sortedness
invariant. -/
theorem foldlM_unload_sorted :
    ∀ (l : List (Pubkey × LoadedProgram)) (c c' : ProgramCache),
      SortedEntries c.entries →
      l.foldlM (fun acc p => ProgramCache.unload_program_entry acc p.1 p.2) c
        = some c' →
      SortedEntries c'.entries := by
  intro l
  induction l with
  | nil =>
    intro c c' hs h
    obtain rfl : c = c' := Option.some.inj h
    exact hs
  | cons x xs ih =>
    intro c c' hs h
    rw [List.foldlM_cons] at h
    rcases hun : c.unload_program_entry x.1 x.2 with _ | c₁
    · rw [hun] at h; exact absurd h (by simp)
    · rw [hun] at h
      exact ih c₁ c' (unload_program_entry_sorted hs hun) h

/-- `sort_and_unload` preserves the sortedness invariant. -/
theorem sort_and_unload_sorted {c : ProgramCache} {shrink_to : Nat}
    {c' : ProgramCache} (hs : SortedEntries c.entries)
    (h : c.sort_and_unload shrink_to = some c') : SortedEntries c'.entries := by
  simp only [ProgramCache.sort_and_unload] at h
  exact foldlM_unload_sorted _ c c' hs h

/-- `merge` preserves the sortedness invariant. -/
theorem merge_sorted {c : ProgramCache} {b : LoadedProgramsForTxBatch}
    (hs : SortedEntries c.entries) : SortedEntries (c.merge b).entries := by
  unfold ProgramCache.merge
  generalize b.entries = l
  induction l generalizing c with
  | nil => exact hs
  | cons x xs ih =>
    simp only [List.foldl_cons]
    exact ih (assign_program_sorted hs)

/-- `finish_cooperative_loading_task` preserves the sortedness invariant. -/
theorem finish_sorted {c : ProgramCache} {slot : Slot} {key : Pubkey}
    {loaded_program : LoadedProgram} {was_occupied : Bool} {c' : ProgramCache}
    (hs : SortedEntries c.entries)
    (h : c.finish_cooperative_loading_task slot key loaded_program
      = some (was_occupied, c')) : SortedEntries c'.entries := by
  unfold ProgramCache.finish_cooperative_loading_task at h
  rcases hfg : c.fork_graph with _ | fg
  · rw [hfg] at h; exact absurd h (by simp)
  · rw [hfg] at h
    simp only [Option.some.injEq, Prod.mk.injEq] at h
    obtain ⟨_, hc⟩ := h
    rw [← hc]
    refine assign_program_sorted ?_
    refine sortedEntries_setSL (sortedEntries_orDefault hs) ?_
    rw [lookupSL_orDefault]
    rcases hq : lookupSL c.entries key with _ | v
    · simp only [hq, Option.getD_some, Option.getD_none]
      exact List.Pairwise.nil
    · simp only [hq, Option.getD_some]
      exact sortedEntries_lookup hs hq

/-- `remove_programs` preserves the sortedness invariant. -/
theorem remove_programs_sorted {c : ProgramCache} {keys : List Pubkey}
    (hs : SortedEntries c.entries) : SortedEntries (c.remove_programs keys).entries := by
  show SortedEntries (keys.foldl (fun es k => es.filter (fun p => p.1 ≠ k)) c.entries)
  generalize c.entries = es at hs ⊢
  induction keys generalizing es with
  | nil => exact hs
  | cons k ks ih =>
    rw [List.foldl_cons]
    exact ih _ (fun q hq => hs q (List.mem_filter.1 hq).1)

/-! ## Claim C10: `prune` without a fork graph is a no-op -/

/-- **C10.** If `ProgramCache::prune` is called while no fork graph has been
set, it returns immediately and the entire cache state is unchanged:
entries, `latest_root_slot`, `latest_root_epoch`, `environments`,
`upcoming_environments` and `programs_to_recompile` all keep their previous
values. -/
theorem claim_C10 (c : ProgramCache) (new_root_slot : Slot) (new_root_epoch : Epoch)
    (h : c.fork_graph = none) :
    c.prune new_root_slot new_root_epoch = c := by
  simp only [ProgramCache.prune, h]

/-- Witness for C10 at a concrete cache. -/
theorem claim_C10_witness :
    wCacheNoGraph.fork_graph = none ∧
      wCacheNoGraph.prune 10 2 = wCacheNoGraph :=
  ⟨rfl, claim_C10 wCacheNoGraph 10 2 rfl⟩

/-! ## Claim C8: `decayed_usage_counter` saturates the shift at 63 -/

/-- **C8.** For every entry and slot `now ≥ latest_access_slot`,
`decayed_usage_counter now` equals `tx_usage_counter` shifted right by
`min 63 (now - latest_access_slot)`; the shift amount never exceeds 63, and
once `now - latest_access_slot ≥ 63` the result is exactly
`tx_usage_counter >>> 63`. -/
theorem claim_C8 (e : LoadedProgram) (now : Slot)
    (_h : e.latest_access_slot ≤ now) :
    e.decayed_usage_counter now
        = e.tx_usage_counter >>> min 63 (now - e.latest_access_slot)
      ∧ min 63 (now - e.latest_access_slot) ≤ 63
      ∧ (63 ≤ now - e.latest_access_slot →
          e.decayed_usage_counter now = e.tx_usage_counter >>> 63) := by
  refine ⟨rfl, Nat.min_le_left .., fun h63 => ?_⟩
  simp only [LoadedProgram.decayed_usage_counter, Nat.min_eq_left h63]

/-- Witness for C8 at a concrete entry and slot. -/
theorem claim_C8_witness :
    wEntry.latest_access_slot ≤ 1000 ∧
      (wEntry.decayed_usage_counter 1000
          = wEntry.tx_usage_counter >>> min 63 (1000 - wEntry.latest_access_slot)
        ∧ min 63 (1000 - wEntry.latest_access_slot) ≤ 63
        ∧ (63 ≤ 1000 - wEntry.latest_access_slot →
            wEntry.decayed_usage_counter 1000 = wEntry.tx_usage_counter >>> 63)) :=
  ⟨by decide, claim_C8 wEntry 1000 (by decide)⟩

/-! ## Claim C1: `find` on the batch view applies delay visibility -/

/-- **C1.** For a batch view holding entry `e` at `addr` whose payload is not
`Builtin` and with `effective_slot - deployment_slot = 1`: when
`deployment_slot ≤ slot < effective_slot`, `find addr` returns a freshly
minted `DelayVisibility` tombstone whose deployment and effective slots both
equal `e.deployment_slot`; otherwise (in particular when
`slot ≥ effective_slot`) it returns `e` itself. -/
theorem claim_C1 (b : LoadedProgramsForTxBatch) (addr : Pubkey) (e : LoadedProgram)
    (hfind : lookupKV b.entries addr = some e)
    (hnb : e.program ≠ .builtin)
    (hoff : e.effective_slot - e.deployment_slot = 1) :
    (e.deployment_slot ≤ b.slot ∧ b.slot < e.effective_slot →
      b.find addr = some (LoadedProgram.new_tombstone e.deployment_slot .delayVisibility)
        ∧ (LoadedProgram.new_tombstone e.deployment_slot .delayVisibility).deployment_slot
            = e.deployment_slot
        ∧ (LoadedProgram.new_tombstone e.deployment_slot .delayVisibility).effective_slot
            = e.deployment_slot
        ∧ (LoadedProgram.new_tombstone e.deployment_slot .delayVisibility).program
            = .delayVisibility)
      ∧ (¬(e.deployment_slot ≤ b.slot ∧ b.slot < e.effective_slot) →
          b.find addr = some e) := by
  have hmatches : (e.program matches .builtin) = false := by
    cases hp : e.program <;> simp_all
  have himp : e.is_implicit_delay_visibility_tombstone b.slot
      = (decide (e.deployment_slot ≤ b.slot) && decide (b.slot < e.effective_slot)) := by
    simp [LoadedProgram.is_implicit_delay_visibility_tombstone, hmatches, hoff,
      DELAY_VISIBILITY_SLOT_OFFSET, ge_iff_le]
  constructor
  · rintro ⟨h1, h2⟩
    refine ⟨?_, rfl, rfl, rfl⟩
    simp [LoadedProgramsForTxBatch.find, hfind, himp, h1, h2]
  · intro hnot
    have : (decide (e.deployment_slot ≤ b.slot) && decide (b.slot < e.effective_slot))
        = false := by
      rcases Decidable.not_and_iff_or_not.mp hnot with h | h <;> simp [h]
    simp [LoadedProgramsForTxBatch.find, hfind, himp, this]

/-- Witness for C1: both branches exercised at `wBatch` (slot 20,
entry deployed at 20 effective at 21) and the same batch moved to slot 21. -/
theorem claim_C1_witness :
    (lookupKV wBatch.entries 7 = some wEntry ∧ wEntry.program ≠ .builtin ∧
      wEntry.effective_slot - wEntry.deployment_slot = 1) ∧
      wBatch.find 7
        = some (LoadedProgram.new_tombstone wEntry.deployment_slot .delayVisibility) ∧
      ({ wBatch with slot := 21 } : LoadedProgramsForTxBatch).find 7 = some wEntry := by
  refine ⟨⟨by decide, by decide, by decide⟩, ?_, ?_⟩
  · exact ((claim_C1 wBatch 7 wEntry (by decide) (by decide) (by decide)).1
      ⟨by decide, by decide⟩).1
  · exact (claim_C1 { wBatch with slot := 21 } 7 wEntry (by decide) (by decide)
      (by decide)).2 (by decide)

/-- `extract` preserves the sortedness invariant. -/
theorem extract_sorted {c : ProgramCache} {sf : List SearchItem}
    {b : LoadedProgramsForTxBatch} {is_first_round : Bool} {worker : ThreadId}
    {out : Option (Pubkey × Nat) × ProgramCache × LoadedProgramsForTxBatch ×
      List SearchItem} (hs : SortedEntries c.entries)
    (h : c.extract sf b is_first_round worker = some out) :
    SortedEntries out.2.1.entries := by
  rcases hfg : c.fork_graph with _ | fg
  · unfold ProgramCache.extract at h
    rw [hfg] at h
    exact absurd h (by simp)
  · rcases hrec : extractGo fg c.latest_root_slot worker sf c.entries b none with
      ⟨sfOut, esOut, bOut, taskOut⟩
    simp only [ProgramCache.extract, hfg, hrec] at h
    obtain rfl := Option.some.inj h
    have := extractGo_sorted fg c.latest_root_slot worker sf c.entries b none hs
    rw [hrec] at this
    exact this

/-- **C4.** Starting from a cache satisfying the sortedness invariant (every
`slot_versions` list strictly sorted ascending by the composite key
`(effective_slot, deployment_slot)`), every public `ProgramCache` operation —
`assign_program`, `extract`, `finish_cooperative_loading_task`, `merge`,
`prune`, `prune_by_deployment_slot`, `evict_using_2s_random_selection`,
`sort_and_unload` and `remove_programs` — returns a cache that still
satisfies it, and strict sortedness forces at most one entry per composite
key (shown here for the state after `assign_program`). -/
theorem claim_C4 (c : ProgramCache) (hs : SortedEntries c.entries)
    (key : Pubkey) (entry : LoadedProgram)
    (sf : List SearchItem) (b : LoadedProgramsForTxBatch)
    (is_first_round : Bool) (worker : ThreadId)
    (slot : Slot) (lp : LoadedProgram)
    (tx_batch : LoadedProgramsForTxBatch)
    (new_root_slot : Slot) (new_root_epoch : Epoch)
    (dep_slot : Slot)
    (shrink_to : Nat) (now : Slot) (rand : Nat → Nat × Nat)
    (keys : List Pubkey) :
    SortedEntries (c.assign_program key entry).2.entries
    ∧ (∀ out, c.extract sf b is_first_round worker = some out →
        SortedEntries out.2.1.entries)
    ∧ (∀ out : Bool × ProgramCache,
        c.finish_cooperative_loading_task slot key lp = some out →
        SortedEntries out.2.entries)
    ∧ SortedEntries (c.merge tx_batch).entries
    ∧ SortedEntries (c.prune new_root_slot new_root_epoch).entries
    ∧ SortedEntries (c.prune_by_deployment_slot dep_slot).entries
    ∧ (∀ c', c.evict_using_2s_random_selection shrink_to now rand = some c' →
        SortedEntries c'.entries)
    ∧ (∀ c', c.sort_and_unload shrink_to = some c' → SortedEntries c'.entries)
    ∧ SortedEntries (c.remove_programs keys).entries
    ∧ (∀ (k : Pubkey) (sl : SecondLevel),
        lookupSL (c.assign_program key entry).2.entries k = some sl →
        ∀ (i j : Nat) (hi : i < sl.slot_versions.length)
          (hj : j < sl.slot_versions.length),
          keyOf (sl.slot_versions.get ⟨i, hi⟩)
              = keyOf (sl.slot_versions.get ⟨j, hj⟩) →
          i = j) := by
  refine ⟨assign_program_sorted hs, ?_, ?_, merge_sorted hs, prune_sorted hs,
    prune_by_deployment_slot_sorted hs, ?_, ?_, remove_programs_sorted hs, ?_⟩
  · intro out hex
    exact extract_sorted hs hex
  · intro out hfin
    exact finish_sorted hs hfin
  · intro c' h
    exact evict_sorted hs h
  · intro c' h
    exact sort_and_unload_sorted hs h
  · intro k sl hlk i j hi hj hk
    exact sorted_key_unique (sortedEntries_lookup (assign_program_sorted hs) hlk)
      hi hj hk

/-- Witness for C4 at a concrete sorted cache: the invariant holds before and
after `assign_program` and after `merge`. -/
theorem claim_C4_witness :
    SortedEntries wCacheC2.entries ∧
      SortedEntries (wCacheC2.assign_program 7 wEntry).2.entries ∧
      SortedEntries (wCacheC2.merge wBatch20).entries :=
  ⟨by decide,
    (claim_C4 wCacheC2 (by decide) 7 wEntry wSf wBatch20 true 1 5 wEntry
      wBatch20 3 1 4 50 9 (fun _ => (0, 0)) []).1,
    (claim_C4 wCacheC2 (by decide) 7 wEntry wSf wBatch20 true 1 5 wEntry
      wBatch20 3 1 4 50 9 (fun _ => (0, 0)) []).2.2.2.1⟩

end ProgramCacheModel
